import Mathlib

/-!
Verification of the answer-extraction and ensemble-decision pipeline of the
LLM-Arduino-Robot repository (src/computer/LLM).  The Python sources are
shallowly embedded: Python strings are Lean strings manipulated as explicit
character lists at the ASCII level, Python floats are modelled as exact
rationals together with a textual sign (so that the signed zero produced by
float("-0.00") keeps its minus), dictionaries as association lists with
distinct keys, and every call into an external system (sympy, subprocess,
the generation engine, the random source) as an explicit oracle parameter.
-/

namespace LLMRobot

attribute [local semireducible] Rat.mul Rat.add Rat.inv Rat.sub

/-! ## Basic Python-style string helpers (over explicit character lists) -/

/-- Python str.split with a one-character separator: always returns a
non-empty list of pieces and keeps empty pieces. -/
def pySplit (sep : Char) : List Char → List (List Char)
  | [] => [[]]
  | c :: rest =>
    let r := pySplit sep rest
    if c == sep then [] :: r
    else
      match r with
      | h :: t => (c :: h) :: t
      | [] => [[c]]

/-- Python str.strip: drop whitespace from both ends. -/
def pyStrip (l : List Char) : List Char :=
  ((l.dropWhile Char.isWhitespace).reverse.dropWhile Char.isWhitespace).reverse

/-- Python str.isalpha at the ASCII level: non-empty and all alphabetic. -/
def pyIsAlpha (l : List Char) : Bool :=
  !l.isEmpty && l.all Char.isAlpha

/-- Remove every comma, as numeric_part.replace(",", "") does. -/
def stripCommas (l : List Char) : List Char := l.filter (fun c => !(c == ','))

/-- Numeric value of a list of ASCII decimal digits, most significant first. -/
def digitsVal (l : List Char) : ℕ := l.foldl (fun a c => 10 * a + (c.toNat - 48)) 0

/-! ## Numeric canonicalizer: extract_and_format_value
(src/computer/LLM/utils/v2/utils.py lines 32-66, identical in v3) -/

/-- Backward scan of extract_and_format_value (lines 50-60): walk the
reversed input accumulating digits, accumulating a decimal point once a
digit has been seen, skipping commas once a digit has been seen, stopping
after keeping an adjacent minus, and halting at any other character after a
digit has been seen. -/
def scanLoop : List Char → List Char → Bool → List Char
  | [], acc, _ => acc
  | c :: rest, acc, found =>
    if c.isDigit || ((c == '.') && found) then scanLoop rest (acc ++ [c]) true
    else if (c == ',') && found then scanLoop rest acc found
    else if (c == '-') && found then acc ++ [c]
    else if found then acc
    else scanLoop rest acc found

/-- Python float() on an unsigned numeral: digit characters with at most one
decimal point and at least one digit.  This models the grammar fragment
reachable from the backward scan, which never produces exponents, spaces,
underscores or repeated signs. -/
def parseMag (l : List Char) : Option ℚ :=
  match pySplit '.' l with
  | [ip] =>
    if ip.isEmpty then none
    else if ip.all Char.isDigit then some (digitsVal ip) else none
  | [ip, fp] =>
    if ip.isEmpty && fp.isEmpty then none
    else if ip.all Char.isDigit && fp.all Char.isDigit then
      some ((digitsVal ip : ℚ) + (digitsVal fp : ℚ) / (10 : ℚ) ^ fp.length)
    else none
  | _ => none

/-- Python float() on a possibly negative numeral, keeping the textual sign
separately from the magnitude: IEEE floats distinguish -0.0 from 0.0 and the
formatter prints the minus of a negative zero. -/
def pyFloat (l : List Char) : Option (Bool × ℚ) :=
  if l.head? = some '-' then (parseMag l.tail).map (fun q => (true, q))
  else (parseMag l).map (fun q => (false, q))

/-- Round a rational to the nearest integer, ties to even: the rounding of
the Python format mini-language applied to a value held exactly. -/
def roundHalfEven (x : ℚ) : ℤ :=
  let n := ⌊x⌋
  let r := x - (n : ℚ)
  if r < 1 / 2 then n
  else if 1 / 2 < r then n + 1
  else if n % 2 = 0 then n else n + 1

/-- Decimal digits of a natural number, most significant first, via
structural fuel so that the definition evaluates by kernel reduction. -/
def natDigitsAux : ℕ → ℕ → List Char
  | 0, _ => []
  | fuel + 1, n =>
    if n < 10 then [Nat.digitChar n]
    else natDigitsAux fuel (n / 10) ++ [Nat.digitChar (n % 10)]

/-- Decimal digits of a natural number, most significant first. -/
def natToDigits (n : ℕ) : List Char := natDigitsAux (n + 1) n

/-- Insert a comma after every group of three characters of a reversed digit
list, as the thousands grouping of format {:,} does. -/
def commaGroupRev : List Char → List Char
  | d1 :: d2 :: d3 :: d4 :: rest => d1 :: d2 :: d3 :: ',' :: commaGroupRev (d4 :: rest)
  | l => l

/-- Thousands grouping of a digit list given most significant first. -/
def groupCommas (ds : List Char) : List Char := (commaGroupRev ds.reverse).reverse

/-- Python format {:,.2f} applied to a textual sign and a magnitude already
rounded to cents: thousands separators every three digits and exactly two
fraction digits. -/
def formatTwo (neg : Bool) (cents : ℕ) : String :=
  String.mk ((if neg then ['-'] else []) ++
    groupCommas (natToDigits (cents / 100)) ++
    '.' :: [Nat.digitChar (cents % 100 / 10), Nat.digitChar (cents % 100 % 10)])

/-- extract_and_format_value (utils/v2/utils.py lines 32-66, identical to
utils/v3/utils.py lines 88-122): scan the input backwards for the trailing
numeric token, strip commas, parse it as a float and reformat it with
thousands separators and two decimals, returning the sentinel "bug" when
the parse fails. -/
def extract_and_format_value (s : String) : String :=
  let numericPart := (scanLoop s.data.reverse [] false).reverse
  match pyFloat (stripCommas numericPart) with
  | some (neg, q) => formatTwo neg (roundHalfEven (100 * q)).toNat
  | none => "bug"

/-- A well-formed decimal string: an optional minus sign, a non-empty
integer part of digits optionally interleaved with comma grouping and
ending with a digit, and an optional fraction part of one or more digits
after a single decimal point.  This is the hypothesis class of the spec's
idempotence property. -/
def WFDecimal (s : String) : Prop :=
  ∃ (neg : Bool) (ip : List Char) (fp : Option (List Char)),
    s.data = (if neg then ['-'] else []) ++ ip ++
      (match fp with | none => [] | some f => '.' :: f) ∧
    ip ≠ [] ∧ (∀ c ∈ ip, c.isDigit = true ∨ c = ',') ∧
    (∃ d, ip.getLast? = some d ∧ d.isDigit = true) ∧
    (∀ f, fp = some f → f ≠ [] ∧ ∀ c ∈ f, c.isDigit = true)

/-! ## Sample aggregator / voter: select_mode_or_sample
(src/computer/LLM/utils/v3/utils.py lines 124-146; the v2 variant at
utils/v2/utils.py lines 68-92 first maps each answer's supporting list to
its length and then proceeds identically).  A Python dict is modelled as an
association list with pairwise distinct keys; the random.choice draw is
modelled by an arbitrary natural number index reduced modulo the pool
size. -/

/-- Python dict indexing frequencies[key] (total, with default 0; the code
only looks up keys that are present). -/
def dictGet (freqs : List (String × ℕ)) (k : String) : ℕ :=
  (((freqs.find? (fun p => p.1 == k)).map Prod.snd).getD 0)

/-- Python max() over the values of a non-empty frequency dict (0 for the
empty dict, where Python would raise ValueError). -/
def maxFreqOf : List (String × ℕ) → ℕ
  | [] => 0
  | f :: fs => (fs.map Prod.snd).foldl max f.2

/-- The list comprehension building modes: keys whose frequency attains the
maximum, in dict order. -/
def modesOf (freqs : List (String × ℕ)) : List String :=
  (freqs.filter (fun p => p.2 == maxFreqOf freqs)).map Prod.fst

/-- The weighted pool used by the tie branch: each mode repeated a number of
times equal to its frequency. -/
def weightedModesOf (freqs : List (String × ℕ)) : List String :=
  (modesOf freqs).foldr (fun m acc => List.replicate (dictGet freqs m) m ++ acc) []

/-- select_mode_or_sample: return the unique maximum-frequency answer with
tag "mode", or draw from the frequency-weighted pool of tied answers with
tag "sampling".  Returns none where Python raises (max() on an empty dict,
random.choice on an empty pool); draw models the random index. -/
def select_mode_or_sample (draw : ℕ) (freqs : List (String × ℕ)) :
    Option (String × String) :=
  match freqs with
  | [] => none
  | _ :: _ =>
    match modesOf freqs with
    | [m] => some (m, "mode")
    | _ =>
      let pool := weightedModesOf freqs
      match pool.get? (draw % pool.length) with
      | some c => some (c, "sampling")
      | none => none

/-- The v2 select_mode_or_sample first turns each answer's supporting list
into its length (utils/v2/utils.py line 78) and then runs the same
mode-or-sample logic. -/
def select_mode_or_sample_v2 (draw : ℕ) (groups : List (String × List String)) :
    Option (String × String) :=
  select_mode_or_sample draw (groups.map (fun p => (p.1, p.2.length)))

/-! ## Variable simplification: simplify_variables
(src/computer/LLM/methods/v2/declarative.py lines 9-26).  The regular
expression \b[a-zA-Z_]\w*\b matches exactly the maximal word-character runs
that begin with a letter or underscore; Python's set of matches is modelled
as the deduplicated list of matches in first-occurrence order (which order
the claims never depend on). -/

/-- Python word character for the regex class \w at the ASCII level. -/
def isWordChar (c : Char) : Bool := c.isAlpha || c.isDigit || c == '_'

/-- Maximal word-character runs of a character list, in order, carrying the
run accumulated so far. -/
def wordRunsAux : List Char → List Char → List (List Char)
  | [], run => if run.isEmpty then [] else [run]
  | c :: rest, run =>
    if isWordChar c then wordRunsAux rest (run ++ [c])
    else if run.isEmpty then wordRunsAux rest []
    else run :: wordRunsAux rest []

/-- Maximal word-character runs of a string. -/
def wordRuns (l : List Char) : List (List Char) := wordRunsAux l []

/-- All matches of \b[a-zA-Z_]\w*\b: maximal word runs starting with a
letter or underscore. -/
def identifiersOf (s : String) : List String :=
  ((wordRuns s.data).filter (fun r =>
    match r with
    | c :: _ => c.isAlpha || c == '_'
    | [] => false)).map (fun r => String.mk r)

/-- The set var_names, as a duplicate-free list in first-occurrence order. -/
def varNamesOf (s : String) : List String := (identifiersOf s).dedup

/-- The list long_var_names of identifiers longer than one character. -/
def longVarNames (s : String) : List String :=
  (varNamesOf s).filter (fun v => 1 < v.length)

/-- The lowercase alphabet scanned for unused single letters. -/
def lowercaseAlphabet : List Char :=
  ['a', 'b', 'c', 'd', 'e', 'f', 'g', 'h', 'i', 'j', 'k', 'l', 'm',
   'n', 'o', 'p', 'q', 'r', 's', 't', 'u', 'v', 'w', 'x', 'y', 'z']

/-- The list unused_chars of lowercase letters that do not occur in
var_names as a standalone identifier. -/
def unusedChars (s : String) : List Char :=
  lowercaseAlphabet.filter (fun c => !((varNamesOf s).contains (String.mk [c])))

/-- The dict comprehension building var_mapping: pair each long name with
the next unused letter, failing (as Python pop(0) raises IndexError) when
the letters run out. -/
def assignLetters : List String → List Char → Option (List (String × Char))
  | [], _ => some []
  | _ :: _, [] => none
  | v :: vs, c :: cs => (assignLetters vs cs).map (fun m => (v, c) :: m)

/-- Whole-word substitution re.sub(r'\b{long}\b', short, text): rebuild the
text replacing exactly the maximal word runs equal to the long name. -/
def substWordAux (long : List Char) (short : Char) : List Char → List Char → List Char
  | [], run => if run.isEmpty then [] else if run == long then [short] else run
  | c :: rest, run =>
    if isWordChar c then substWordAux long short rest (run ++ [c])
    else if run.isEmpty then c :: substWordAux long short rest []
    else if run == long then short :: c :: substWordAux long short rest []
    else run ++ c :: substWordAux long short rest []

/-- Whole-word substitution over a string. -/
def substWord (long : String) (short : Char) (s : String) : String :=
  String.mk (substWordAux long.data short s.data [])

/-- simplify_variables: build the mapping from multi-character variable
names to unused single letters and apply it by whole-word substitution;
none models the IndexError Python raises when the letter pool is
exhausted. -/
def simplify_variables (equations : String) :
    Option (String × List (String × Char)) :=
  match assignLetters (longVarNames equations) (unusedChars equations) with
  | none => none
  | some m => some (m.foldl (fun acc p => substWord p.1 p.2 acc) equations, m)

/-! ## Equation extractor: get_declarative_equations and helpers
(src/computer/LLM/methods/v2/declarative.py lines 28-105). -/

/-- clean_equation_text (lines 28-39): drop every character that is not a
word character, whitespace, or one of = + - * / ( ) . [ ]. -/
def clean_equation_text (t : String) : String :=
  String.mk (t.data.filter (fun c =>
    isWordChar c || c.isWhitespace || c == '=' || c == '+' || c == '-' ||
    c == '*' || c == '/' || c == '(' || c == ')' || c == '.' || c == '[' || c == ']'))

/-- Python slice eq[2 : -2]: drop the outer two characters on each side. -/
def sliceTwoTwo (l : List Char) : List Char := (l.drop 2).take (l.length - 4)

/-- reformat_incre_equations (lines 41-58): join the slices eq[2:-2] with
", ", skipping the separator while the accumulated result is empty. -/
def reformat_incre_equations (x : List String) : String :=
  x.foldl (fun result eq =>
    if result.isEmpty then result ++ String.mk (sliceTwoTwo eq.data)
    else result ++ ", " ++ String.mk (sliceTwoTwo eq.data)) ""

/-- Index of the first occurrence of a substring, as Python str.index. -/
def firstIdxSub (pat : List Char) : List Char → Option ℕ
  | [] => if pat.isEmpty then some 0 else none
  | l@(_ :: rest) =>
    if pat.isPrefixOf l then some 0
    else (firstIdxSub pat rest).map (fun i => i + 1)

/-- reformat_equations_from_peano (lines 60-82): split on commas; a token
containing "eq" contributes everything after that substring, a token
containing "answer" contributes everything after it, stripped, plus " = ?";
other tokens are dropped; contributions are joined with ", " skipping the
separator while the result is empty. -/
def reformat_equations_from_peano (eqList : String) : String :=
  (pySplit ',' eqList.data).foldl (fun result tok =>
    match firstIdxSub ['e', 'q'] tok with
    | some i =>
      let piece := String.mk (tok.drop (i + 2))
      if result.isEmpty then result ++ piece else result ++ ", " ++ piece
    | none =>
      match firstIdxSub ['a', 'n', 's', 'w', 'e', 'r'] tok with
      | some i =>
        let piece := String.mk (pyStrip (tok.drop (i + 6))) ++ " = ?"
        if result.isEmpty then result ++ piece else result ++ ", " ++ piece
      | none => result) ""

/-- Scan for the earliest closing "]]" with no newline before it, returning
the enclosed body and the remainder after the closing brackets: the lazy
regex fragment .*?]] with '.' not matching newlines. -/
def findClose : List Char → Option (List Char × List Char)
  | [] => none
  | c :: rest =>
    if c == ']' && (rest.head? == some ']') then some ([], rest.tail)
    else if c == '\n' then none
    else (findClose rest).map (fun p => (c :: p.1, p.2))

/-- All matches of re.findall(r'\[\[.*?\]\]', s), scanning left to right
with fuel bounded by the input length (each step consumes at least one
character). -/
def findFragsAux : ℕ → List Char → List String
  | _, [] => []
  | 0, _ => []
  | fuel + 1, c :: rest =>
    if c == '[' && (rest.head? == some '[') then
      match findClose rest.tail with
      | some (body, rest3) =>
        String.mk ('[' :: '[' :: body ++ [']', ']']) :: findFragsAux fuel rest3
      | none => findFragsAux fuel rest
    else findFragsAux fuel rest

/-- All double-bracket fragments of a prediction text. -/
def findFrags (l : List Char) : List String := findFragsAux l.length l

/-- get_declarative_equations (lines 84-105): extract the double-bracketed
fragments, clean each, and reformat; return the prediction unchanged when
no fragment exists. -/
def get_declarative_equations (prediction : String) : String :=
  let eqList := findFrags prediction.data
  if eqList.length > 0 then
    reformat_equations_from_peano
      (reformat_incre_equations (eqList.map clean_equation_text))
  else prediction

/-! ## Symbolic solver: get_final_using_sympy
(src/computer/LLM/methods/v2/declarative.py lines 107-184).  The sympy
library is an external collaborator: its parse_expr, sympify, float() and
solve() calls are modelled by an oracle whose operations may fail with an
exception message; Except threading mirrors the Python try/except
structure, and the top-level catch-all maps any escaped exception to the
string "bug". -/

/-- A value returned by the solver: a float (held exactly), the float nan,
or a Python string. -/
inductive PyVal where
  | num (q : ℚ)
  | nan
  | str (s : String)
deriving DecidableEq, Repr

/-- The sympy operations invoked by get_final_using_sympy, over an abstract
expression type E; each may raise, modelled by Except. -/
structure SymOracle (E : Type) where
  parseExpr : String → Except String E
  sympifyE : E → Except String E
  floatOfE : E → Except String ℚ
  solveFirstFloat : E → Except String ℚ
  solveDictFloat : List E → String → Except String ℚ
  solveListFloat : List E → String → Except String ℚ

/-- The sanity guard of lines 123-127: three consecutive alphabetic
characters anywhere in an equation. -/
def hasTripleAlpha : List Char → Bool
  | a :: b :: c :: rest =>
    (a.isAlpha && b.isAlpha && c.isAlpha) || hasTripleAlpha (b :: c :: rest)
  | _ => false

/-- The loop of lines 135-138 searching the alphabet, lowercase then
uppercase, for a letter absent from the last equation. -/
def firstUnusedLetter (lastEq : List Char) : Option Char :=
  (lowercaseAlphabet ++ lowercaseAlphabet.map (fun c => c.toUpper)).find?
    (fun c => !lastEq.contains c)

/-- The incremental solving loop of lines 161-179 over all equations except
the last: skip equations containing a placeholder, rewrite lhs = rhs to
lhs - (rhs), parse (any failure returning invalid equations, including the
IndexError Python raises when no '=' is present), accumulate, and attempt
the dictionary-style then the list-style solve, falling through the loop on
failure; reaching the end of the loop returns no solution (line 181). -/
def solverLoop {E : Type} (O : SymOracle E) (goalVar : String) :
    List String → List E → Except String PyVal
  | [], _ => .ok (.str "no solution")
  | eqStr :: rest, acc =>
    if eqStr.data.contains '?' then solverLoop O goalVar rest acc
    else
      let parts := pySplit '=' eqStr.data
      match parts.get? 1 with
      | none => .ok (.str "invalid equations")
      | some rhs =>
        let lhs := String.mk (pyStrip (parts.headD []))
        let exprStr := lhs ++ " - (" ++ String.mk (pyStrip rhs) ++ ")"
        match O.parseExpr exprStr with
        | .error _ => .ok (.str "invalid equations")
        | .ok e₀ =>
          match O.sympifyE e₀ with
          | .error _ => .ok (.str "invalid equations")
          | .ok e =>
            let acc' := acc ++ [e]
            match O.solveDictFloat acc' goalVar with
            | .ok q => .ok (.num q)
            | .error _ =>
              match O.solveListFloat acc' goalVar with
              | .ok q => .ok (.num q)
              | .error _ => solverLoop O goalVar rest acc'

/-- The fall-through point after goal detection: the single-equation
shortcut of lines 151-156 (parse the left-hand side of the sole equation
and return its float value, or invalid equations on any failure), then the
no-goal check of lines 158-159, then the incremental loop. -/
def afterGoal {E : Type} (O : SymOracle E) (equationList : List String)
    (goalVar : Option String) (acc : List E) : Except String PyVal :=
  if equationList.length = 1 then
    let lhs := String.mk ((pySplit '=' (equationList.headD "").data).headD [])
    match O.parseExpr lhs with
    | .error _ => .ok (.str "invalid equations")
    | .ok e₀ =>
      match O.sympifyE e₀ with
      | .error _ => .ok (.str "invalid equations")
      | .ok e =>
        match O.floatOfE e with
        | .ok q => .ok (.num q)
        | .error _ => .ok (.str "invalid equations")
  else
    match goalVar with
    | none => .ok (.str "no goal found")
    | some g => solverLoop O g equationList.dropLast acc

/-- The body of get_final_using_sympy inside the top-level try (lines
118-181): simplify variables (the IndexError of an exhausted letter pool
propagates), return nan for the literal string nan, split on commas, apply
the triple-alphabetic sanity guard, detect the goal variable from the last
equation (directly when its left-hand side is purely alphabetic or of
length two; otherwise, when the last equation has an equals sign, through a
synthetic unused letter, parsing goal - (lhs) with errors propagating and
attempting an immediate solve whose success returns at once), and fall
through to the single-equation shortcut, the no-goal check and the
incremental loop. -/
def getFinalBody {E : Type} (O : SymOracle E) (s : String) : Except String PyVal :=
  match simplify_variables s with
  | none => .error "IndexError: pop from empty list"
  | some (equations, _) =>
    if equations = "nan" then .ok .nan
    else
      let equationList := (pySplit ',' equations.data).map String.mk
      if equationList.any (fun eq => hasTripleAlpha eq.data) then
        .ok (.str "invalid equations")
      else
        let lastEq := equationList.getLastD ""
        let lastLhs := String.mk (pyStrip ((pySplit '=' lastEq.data).headD []))
        if pyIsAlpha lastLhs.data || lastLhs.length = 2 then
          afterGoal O equationList (some lastLhs) []
        else if lastEq.data.contains '=' then
          match firstUnusedLetter lastEq.data with
          | some g =>
            let goalStr := String.mk [g] ++ " - (" ++ lastLhs ++ ")"
            match O.parseExpr goalStr with
            | .error e => .error e
            | .ok e₀ =>
              match O.sympifyE e₀ with
              | .error e => .error e
              | .ok ge =>
                match O.solveFirstFloat ge with
                | .ok q => .ok (.num q)
                | .error _ => afterGoal O equationList (some (String.mk [g])) [ge]
          | none => .ok (.str "invalid equations")
        else afterGoal O equationList none []

/-- get_final_using_sympy: the body wrapped in the top-level try/except of
lines 117 and 182-184, which maps any escaped exception to "bug". -/
def get_final_using_sympy {E : Type} (O : SymOracle E) (s : String) : PyVal :=
  match getFinalBody O s with
  | .ok v => v
  | .error _ => .str "bug"

/-- The values the solver contract allows: a float (including nan) or one
of the four failure tags. -/
def AllowedVal (v : PyVal) : Prop :=
  (∃ q, v = .num q) ∨ v = .nan ∨ v = .str "invalid equations" ∨
    v = .str "no goal found" ∨ v = .str "no solution" ∨ v = .str "bug"

/-! ## A concrete sympy model on the elementary arithmetic fragment:
integer literals, single-letter symbols, + - * / and parentheses, which is
the fragment the solver feeds sympy on the concrete inputs settled below.
float() succeeds exactly on closed expressions (no free symbol, no division
by zero), and solve() is modelled for univariate linear expressions,
conservatively failing elsewhere. -/

/-- Abstract syntax of the elementary sympy expressions. -/
inductive AExpr where
  | num (q : ℚ)
  | sym (c : Char)
  | add (a b : AExpr)
  | sub (a b : AExpr)
  | mul (a b : AExpr)
  | div (a b : AExpr)
  | neg (a : AExpr)
deriving DecidableEq, Repr

/-- Tokens of the elementary expression grammar. -/
inductive ATok where
  | tnum (n : ℕ)
  | tsym (c : Char)
  | tplus
  | tminus
  | tstar
  | tslash
  | tlp
  | trp
deriving DecidableEq, Repr

/-- Character-level pre-tokens: digits still separate. -/
inductive PreTok where
  | pdigit (d : ℕ)
  | pother (t : ATok)

/-- First tokenizer pass: classify each non-space character, rejecting
anything outside the fragment. -/
def tokenize1 : List Char → Option (List PreTok)
  | [] => some []
  | c :: rest =>
    if c.isWhitespace then tokenize1 rest
    else if c.isDigit then (tokenize1 rest).map (fun ts => .pdigit (c.toNat - 48) :: ts)
    else if c.isAlpha then (tokenize1 rest).map (fun ts => .pother (.tsym c) :: ts)
    else if c == '+' then (tokenize1 rest).map (fun ts => .pother .tplus :: ts)
    else if c == '-' then (tokenize1 rest).map (fun ts => .pother .tminus :: ts)
    else if c == '*' then (tokenize1 rest).map (fun ts => .pother .tstar :: ts)
    else if c == '/' then (tokenize1 rest).map (fun ts => .pother .tslash :: ts)
    else if c == '(' then (tokenize1 rest).map (fun ts => .pother .tlp :: ts)
    else if c == ')' then (tokenize1 rest).map (fun ts => .pother .trp :: ts)
    else none

/-- Second tokenizer pass: merge adjacent digits into integer literals. -/
def mergeDigits : Option ℕ → List PreTok → List ATok
  | none, [] => []
  | some n, [] => [.tnum n]
  | none, .pdigit d :: rest => mergeDigits (some d) rest
  | some n, .pdigit d :: rest => mergeDigits (some (n * 10 + d)) rest
  | none, .pother t :: rest => t :: mergeDigits none rest
  | some n, .pother t :: rest => .tnum n :: t :: mergeDigits none rest

/-- Tokenize a string of the elementary expression grammar. -/
def tokenizeA (l : List Char) : Option (List ATok) :=
  (tokenize1 l).map (mergeDigits none)

mutual
/-- Parse a sum of terms, fuel-bounded. -/
def parseSum : ℕ → List ATok → Option (AExpr × List ATok)
  | 0, _ => none
  | fuel + 1, ts =>
    match parseTerm fuel ts with
    | none => none
    | some (t, ts₁) => parseSumRest fuel t ts₁

/-- Parse the remaining + and - chain, left associated. -/
def parseSumRest : ℕ → AExpr → List ATok → Option (AExpr × List ATok)
  | 0, _, _ => none
  | fuel + 1, acc, ts =>
    match ts with
    | .tplus :: ts₁ =>
      match parseTerm fuel ts₁ with
      | none => none
      | some (t, ts₂) => parseSumRest fuel (.add acc t) ts₂
    | .tminus :: ts₁ =>
      match parseTerm fuel ts₁ with
      | none => none
      | some (t, ts₂) => parseSumRest fuel (.sub acc t) ts₂
    | _ => some (acc, ts)

/-- Parse a product of factors, fuel-bounded. -/
def parseTerm : ℕ → List ATok → Option (AExpr × List ATok)
  | 0, _ => none
  | fuel + 1, ts =>
    match parseFactor fuel ts with
    | none => none
    | some (f, ts₁) => parseTermRest fuel f ts₁

/-- Parse the remaining * and / chain, left associated. -/
def parseTermRest : ℕ → AExpr → List ATok → Option (AExpr × List ATok)
  | 0, _, _ => none
  | fuel + 1, acc, ts =>
    match ts with
    | .tstar :: ts₁ =>
      match parseFactor fuel ts₁ with
      | none => none
      | some (f, ts₂) => parseTermRest fuel (.mul acc f) ts₂
    | .tslash :: ts₁ =>
      match parseFactor fuel ts₁ with
      | none => none
      | some (f, ts₂) => parseTermRest fuel (.div acc f) ts₂
    | _ => some (acc, ts)

/-- Parse a factor: unary minus, literal, symbol, or parenthesis. -/
def parseFactor : ℕ → List ATok → Option (AExpr × List ATok)
  | 0, _ => none
  | fuel + 1, ts =>
    match ts with
    | .tminus :: ts₁ =>
      match parseFactor fuel ts₁ with
      | none => none
      | some (f, ts₂) => some (.neg f, ts₂)
    | .tnum n :: ts₁ => some (.num (n : ℚ), ts₁)
    | .tsym c :: ts₁ => some (.sym c, ts₁)
    | .tlp :: ts₁ =>
      match parseSum fuel ts₁ with
      | none => none
      | some (e, ts₂) =>
        match ts₂ with
        | .trp :: ts₃ => some (e, ts₃)
        | _ => none
    | _ => none
end

/-- Model of sympy parse_expr on the elementary fragment: tokenize and
parse, requiring all tokens to be consumed. -/
def parseAExpr (s : String) : Option AExpr :=
  match tokenizeA s.data with
  | none => none
  | some ts =>
    match parseSum (ts.length + 1) ts with
    | some (e, []) => some e
    | _ => none

/-- Numeric evaluation: none when a free symbol remains or a division by
zero occurs, where Python float() raises. -/
def aexprEval : AExpr → Option ℚ
  | .num q => some q
  | .sym _ => none
  | .add a b =>
    match aexprEval a, aexprEval b with
    | some x, some y => some (x + y)
    | _, _ => none
  | .sub a b =>
    match aexprEval a, aexprEval b with
    | some x, some y => some (x - y)
    | _, _ => none
  | .mul a b =>
    match aexprEval a, aexprEval b with
    | some x, some y => some (x * y)
    | _, _ => none
  | .div a b =>
    match aexprEval a, aexprEval b with
    | some x, some y => if y = 0 then none else some (x / y)
    | _, _ => none
  | .neg a => (aexprEval a).map (fun x => -x)

/-- Free symbols of an expression. -/
def aexprSyms : AExpr → List Char
  | .num _ => []
  | .sym c => [c]
  | .add a b => aexprSyms a ++ aexprSyms b
  | .sub a b => aexprSyms a ++ aexprSyms b
  | .mul a b => aexprSyms a ++ aexprSyms b
  | .div a b => aexprSyms a ++ aexprSyms b
  | .neg a => aexprSyms a

/-- View an expression as the linear form a + b * v in the symbol v,
failing on nonlinear shapes or division by a non-constant. -/
def linForm (v : Char) : AExpr → Option (ℚ × ℚ)
  | .num q => some (q, 0)
  | .sym c => if c == v then some (0, 1) else none
  | .add a b =>
    match linForm v a, linForm v b with
    | some (a₀, a₁), some (b₀, b₁) => some (a₀ + b₀, a₁ + b₁)
    | _, _ => none
  | .sub a b =>
    match linForm v a, linForm v b with
    | some (a₀, a₁), some (b₀, b₁) => some (a₀ - b₀, a₁ - b₁)
    | _, _ => none
  | .mul a b =>
    match linForm v a, linForm v b with
    | some (a₀, a₁), some (b₀, b₁) =>
      if a₁ = 0 then some (a₀ * b₀, a₀ * b₁)
      else if b₁ = 0 then some (a₀ * b₀, a₁ * b₀)
      else none
    | _, _ => none
  | .div a b =>
    match linForm v a, linForm v b with
    | some (a₀, a₁), some (b₀, b₁) =>
      if b₁ = 0 && !(b₀ = 0) then some (a₀ / b₀, a₁ / b₀) else none
    | _, _ => none
  | .neg a => (linForm v a).map (fun p => (-p.1, -p.2))

/-- Model of float(solve(e)[0]) for a univariate linear expression: the
root when the symbol occurs linearly with nonzero coefficient; an error
otherwise (sympy returns an empty solution list for a constant, making the
indexing raise, and the multivariate or nonlinear cases are conservatively
unmodelled and fail). -/
def solveFirstAExpr (e : AExpr) : Except String ℚ :=
  match (aexprSyms e).dedup with
  | [v] =>
    match linForm v e with
    | some (a, b) => if b = 0 then .error "IndexError" else .ok (-a / b)
    | none => .error "solve: not modelled beyond linear"
  | [] => .error "IndexError: empty solution list"
  | _ => .error "solve: not modelled beyond one symbol"

/-- The concrete sympy oracle over the elementary fragment; the
dictionary-style and list-style system solves are conservatively modelled
as failing, which none of the concrete runs settled here ever reach. -/
def sympyModel : SymOracle AExpr where
  parseExpr s :=
    match parseAExpr s with
    | some e => .ok e
    | none => .error "SyntaxError"
  sympifyE e := .ok e
  floatOfE e :=
    match aexprEval e with
    | some q => .ok q
    | none => .error "TypeError: cannot convert expression to float"
  solveFirstFloat := solveFirstAExpr
  solveDictFloat _ _ := .error "system solve not modelled"
  solveListFloat _ _ := .error "system solve not modelled"

/-! ## External collaborators: sandboxed code execution and the generation
engine (src/computer/LLM/methods/v2/program_aided_lm.py lines 8-39 and
src/computer/LLM/utils/v2/utils.py lines 139-208).  The subprocess module
and the in-process engine are oracles: an invocation either completes with
a return code and captured streams, times out, or raises. -/

/-- The observable result of subprocess.run. -/
structure CompletedProcess where
  returncode : Int
  stdout : String
  stderr : String
deriving DecidableEq, Repr

/-- Outcome of one sandboxed execution attempt: completion, timeout, or an
arbitrary raised exception. -/
inductive ProcOutcome where
  | completed (p : CompletedProcess)
  | timeoutExpired
  | raised (e : String)
deriving DecidableEq, Repr

/-- The line appended to every generated program before execution
(program_aided_lm.py line 19). -/
def solutionCallSuffix : String := "\nprint(solution())"

/-- run_code_with_subprocess_timeout: append the solution() call, run the
script, and return stripped standard output exactly on exit code 0 within
the timeout; timeout, nonzero exit and any raised error all map to "bug"
(the temp-file bookkeeping is I/O glue carried by the oracle). -/
def run_code_with_subprocess_timeout (run : String → ProcOutcome) (code : String) : String :=
  match run (code ++ solutionCallSuffix) with
  | .completed p => if p.returncode = 0 then String.mk (pyStrip p.stdout.data) else "bug"
  | .timeoutExpired => "bug"
  | .raised _ => "bug"

/-- Outcome of one in-process engine call (the llm(...) invocation plus the
indexing of its result): the generated text, or an arbitrary raised
exception. -/
inductive LlmOutcome where
  | ok (text : String)
  | raisedE (e : String)
deriving DecidableEq, Repr

/-- Outcome of one out-of-process engine invocation through subprocess:
completion or an arbitrary raised exception. -/
inductive CppOutcome where
  | completedC (p : CompletedProcess)
  | raisedC (e : String)
deriving DecidableEq, Repr

/-- Python str.replace with a non-empty pattern, fuel-bounded by the input
length (each step consumes at least one character). -/
def replaceAux (pat repl : List Char) : ℕ → List Char → List Char
  | _, [] => []
  | 0, l => l
  | fuel + 1, l@(c :: rest) =>
    if pat.isPrefixOf l then repl ++ replaceAux pat repl fuel (l.drop pat.length)
    else c :: replaceAux pat repl fuel rest

/-- Python str.replace; modelled for the non-empty patterns the code uses
(the empty-pattern edge is returned unchanged). -/
def pyReplace (s pat repl : String) : String :=
  if pat.isEmpty then s
  else String.mk (replaceAux pat.data repl.data s.data.length s.data)

/-- One iteration of the run_llm loop (utils/v2/utils.py lines 159-206):
on the Python path the stripped generation text, or "-1" when the engine
call raises; on the C++ path the captured standard output with the prompt
and the stop marker removed and stripped when the binary exits with code 0,
or "-1" on nonzero exit or any raised error. -/
def runLlmIter (cpp : Bool) (pyCall : ℕ → LlmOutcome) (cppCall : ℕ → CppOutcome)
    (message : String) (iteration : ℕ) : String :=
  if !cpp then
    match pyCall iteration with
    | .ok text => String.mk (pyStrip text.data)
    | .raisedE _ => "-1"
  else
    match cppCall iteration with
    | .completedC p =>
      let processed := String.mk (pyStrip (pyReplace (pyReplace p.stdout message "") "Q:" "").data)
      if p.returncode = 0 then processed else "-1"
    | .raisedC _ => "-1"

/-- run_llm: the loop over iterations collecting one output per engine
invocation. -/
def run_llm (cpp : Bool) (pyCall : ℕ → LlmOutcome) (cppCall : ℕ → CppOutcome)
    (message : String) (iterations : ℕ) : List String :=
  (List.range iterations).map (runLlmIter cpp pyCall cppCall message)

/-! ## Theorems -/

/-- The backward scan accumulates nothing while no digit has been seen. -/
theorem scanLoop_no_digit (l : List Char) (acc : List Char)
    (h : ∀ c ∈ l, ¬ c.isDigit = true) : scanLoop l acc false = acc := by
  induction l with
  | nil => rfl
  | cons c rest ih =>
    have hc : c.isDigit = false := by
      have := h c (by simp)
      simp_all
    have hstep : scanLoop (c :: rest) acc false = scanLoop rest acc false := by
      simp [scanLoop, hc]
    rw [hstep]
    exact ih (fun d hd => h d (by simp [hd]))

/-- Claim C3: on any input containing no digit characters the numeric
canonicalizer extract_and_format_value returns the sentinel "bug"; the
embedding is a total function of its input, so no exception can escape. -/
theorem claim_C3 (s : String) (h : ∀ c ∈ s.data, ¬ c.isDigit = true) :
    extract_and_format_value s = "bug" := by
  unfold extract_and_format_value
  rw [scanLoop_no_digit]
  · rfl
  · intro c hc
    exact h c (List.mem_reverse.mp hc)

/-- Witness for claim C3 at the concrete digit-free input of the spec. -/
theorem claim_C3_witness : extract_and_format_value "no numbers here" = "bug" :=
  claim_C3 "no numbers here" (by decide)

/-- Claim C4 counterexample: on "1.2.3" the canonicalizer accumulates the
whole token (both decimal points), so the float parse fails and the result
is "bug", not the claimed "2.30". -/
theorem claim_C4_counterexample :
    extract_and_format_value "1.2.3" = "bug" ∧
      ¬ extract_and_format_value "1.2.3" = "2.30" := by
  constructor <;> decide

/-- Claim C4 amended: once a digit has been seen, every decimal point
encountered by the backward scan is accumulated and the scan continues
(the guard char == '.' and found_digit tests only the digit flag, so there
is no one-point limit and no halt at a second point); consequently the
trailing token of "1.2.3" is accumulated whole and the canonicalizer
returns "bug". -/
theorem claim_C4_amended :
    (∀ rest acc, scanLoop ('.' :: rest) acc true = scanLoop rest (acc ++ ['.']) true) ∧
      extract_and_format_value "1.2.3" = "bug" := by
  refine ⟨fun rest acc => ?_, by decide⟩
  rfl

/-- Claim C1 counterexample: the solver does not return 5.0 on the input
"x = 2 + 3"; the single-equation shortcut parses the left-hand side "x "
alone, a bare symbol that float() cannot convert. -/
theorem claim_C1_counterexample :
    ¬ get_final_using_sympy sympyModel "x = 2 + 3" = .num 5 := by
  decide

/-- Claim C1 amended: on the input "x = 2 + 3" the single-equation shortcut
parses the left-hand side "x " alone, whose float conversion fails, so the
solver returns the tag invalid equations; the shortcut returns the
evaluated value 5.0 for a sole equation whose left-hand side is a closed
expression, such as the bare "2 + 3". -/
theorem claim_C1_amended :
    get_final_using_sympy sympyModel "x = 2 + 3" = .str "invalid equations" ∧
      get_final_using_sympy sympyModel "2 + 3" = .num 5 := by
  constructor <;> decide

/-! ### Voter lemmas -/

/-- Everything below a bound stays below it through a foldl of max. -/
theorem foldl_max_le {l : List ℕ} {init b : ℕ} (hinit : init ≤ b)
    (h : ∀ x ∈ l, x ≤ b) : l.foldl max init ≤ b := by
  induction l generalizing init with
  | nil => exact hinit
  | cons x xs ih =>
    exact ih (max_le hinit (h x (by simp))) (fun y hy => h y (by simp [hy]))

/-- The initial value bounds a foldl of max from below. -/
theorem le_foldl_max_init (l : List ℕ) (init : ℕ) : init ≤ l.foldl max init := by
  induction l generalizing init with
  | nil => exact le_rfl
  | cons x xs ih => exact le_trans (le_max_left init x) (ih (max init x))

/-- Every member bounds a foldl of max from below. -/
theorem le_foldl_max_mem {l : List ℕ} {x : ℕ} (hx : x ∈ l) (init : ℕ) :
    x ≤ l.foldl max init := by
  induction l generalizing init with
  | nil => cases hx
  | cons y ys ih =>
    rcases List.mem_cons.mp hx with rfl | hmem
    · exact le_trans (le_max_right init x) (le_foldl_max_init ys (max init x))
    · exact ih hmem (max init y)

/-- A foldl of max is the initial value or a member. -/
theorem foldl_max_cases (l : List ℕ) (init : ℕ) :
    l.foldl max init = init ∨ l.foldl max init ∈ l := by
  induction l generalizing init with
  | nil => exact Or.inl rfl
  | cons x xs ih =>
    rcases ih (max init x) with h | h
    · rcases Nat.le_total init x with hle | hle
      · right
        rw [List.foldl_cons, h, max_eq_right hle]
        exact List.mem_cons_self x xs
      · left
        rw [List.foldl_cons, h, max_eq_left hle]
    · right
      exact List.mem_cons_of_mem x h

/-- Every frequency is bounded by the maximum frequency. -/
theorem le_maxFreqOf {freqs : List (String × ℕ)} {p : String × ℕ} (hp : p ∈ freqs) :
    p.2 ≤ maxFreqOf freqs := by
  match freqs, hp with
  | f :: fs, hp =>
    rcases List.mem_cons.mp hp with rfl | hmem
    · exact le_foldl_max_init _ _
    · exact le_foldl_max_mem (List.mem_map_of_mem Prod.snd hmem) _

/-- The maximum frequency of a non-empty table is attained. -/
theorem maxFreqOf_mem {freqs : List (String × ℕ)} (hne : freqs ≠ []) :
    ∃ p ∈ freqs, p.2 = maxFreqOf freqs := by
  match freqs, hne with
  | f :: fs, _ =>
    rcases foldl_max_cases (fs.map Prod.snd) f.2 with h | h
    · exact ⟨f, by simp, h.symm⟩
    · rcases List.mem_map.mp h with ⟨p, hp, hval⟩
      exact ⟨p, by simp [hp], hval⟩

/-- With pairwise distinct keys, a key determines its value. -/
theorem nodup_key_eq {l : List (String × ℕ)} (hnd : (l.map Prod.fst).Nodup)
    {a : String} {b c : ℕ} (hb : (a, b) ∈ l) (hc : (a, c) ∈ l) : b = c := by
  induction l with
  | nil => cases hb
  | cons p l' ih =>
    have hnd' : (l'.map Prod.fst).Nodup := (List.nodup_cons.mp hnd).2
    have hhead : p.1 ∉ l'.map Prod.fst := (List.nodup_cons.mp hnd).1
    rcases List.mem_cons.mp hb with rfl | hb' <;>
      rcases List.mem_cons.mp hc with hceq | hc'
    · exact (congrArg Prod.snd hceq.symm)
    · exact absurd (List.mem_map_of_mem Prod.fst hc') (by simpa using hhead)
    · rw [← hceq] at hhead
      exact absurd (List.mem_map_of_mem Prod.fst hb') (by simpa using hhead)
    · exact ih hnd' hb' hc'

/-- With pairwise distinct keys, dict lookup returns the stored value. -/
theorem dictGet_eq {l : List (String × ℕ)} (hnd : (l.map Prod.fst).Nodup)
    {a : String} {b : ℕ} (hb : (a, b) ∈ l) : dictGet l a = b := by
  induction l with
  | nil => cases hb
  | cons p l' ih =>
    have hnd' : (l'.map Prod.fst).Nodup := (List.nodup_cons.mp hnd).2
    have hhead : p.1 ∉ l'.map Prod.fst := (List.nodup_cons.mp hnd).1
    rcases List.mem_cons.mp hb with rfl | hb'
    · simp [dictGet]
    · have hne : ¬ (p.1 == a) = true := by
        intro hbeq
        have : p.1 = a := by simpa using hbeq
        rw [this] at hhead
        exact hhead (List.mem_map_of_mem Prod.fst hb')
      simp only [dictGet, List.find?]
      rw [Bool.eq_false_iff.mpr hne]
      exact ih hnd' hb'

/-- When exactly one element satisfies the predicate and keys are distinct,
the filter is that singleton. -/
theorem filter_eq_singleton {l : List (String × ℕ)} {q : String × ℕ}
    {pred : String × ℕ → Bool} (hnd : (l.map Prod.fst).Nodup) (hq : q ∈ l)
    (hiff : ∀ p ∈ l, pred p = true ↔ p = q) : l.filter pred = [q] := by
  induction l with
  | nil => cases hq
  | cons x l' ih =>
    have hnd' : (l'.map Prod.fst).Nodup := (List.nodup_cons.mp hnd).2
    have hhead : x.1 ∉ l'.map Prod.fst := (List.nodup_cons.mp hnd).1
    by_cases hxq : x = q
    · subst hxq
      have hp : pred x = true := (hiff x (by simp)).mpr rfl
      have hrest : l'.filter pred = [] := by
        rw [List.filter_eq_nil_iff]
        intro r hr hpr
        have hrx : r = x := (hiff r (by simp [hr])).mp hpr
        rw [hrx] at hr
        exact hhead (List.mem_map_of_mem Prod.fst hr)
      simp [List.filter_cons, hp, hrest]
    · have hq' : q ∈ l' := by
        rcases List.mem_cons.mp hq with h | h
        · exact absurd h.symm hxq
        · exact h
      have hp : pred x = false := by
        by_cases hpx : pred x = true
        · exact absurd ((hiff x (by simp)).mp hpx) hxq
        · simpa using hpx
      have hrec := ih hnd' hq' (fun r hr => hiff r (by simp [hr]))
      simp [List.filter_cons, hp, hrec]

/-- Claim C2: whenever exactly one answer attains the maximum frequency of
a non-empty table with distinct keys, select_mode_or_sample returns that
answer with the method tag "mode", for every random draw. -/
theorem claim_C2 (freqs : List (String × ℕ)) (draw : ℕ) (a : String) (m : ℕ)
    (hnd : (freqs.map Prod.fst).Nodup) (hmem : (a, m) ∈ freqs)
    (hmax : ∀ p ∈ freqs, p.1 ≠ a → p.2 < m) :
    select_mode_or_sample draw freqs = some (a, "mode") := by
  have hne : freqs ≠ [] := by
    intro h
    rw [h] at hmem
    cases hmem
  have hmaxeq : maxFreqOf freqs = m := by
    have h1 : m ≤ maxFreqOf freqs := le_maxFreqOf hmem
    have h2 : maxFreqOf freqs ≤ m := by
      rcases maxFreqOf_mem hne with ⟨p, hp, hval⟩
      rw [← hval]
      by_cases hpa : p.1 = a
      · rcases p with ⟨p1, p2⟩
        rcases hpa with rfl
        exact le_of_eq (nodup_key_eq hnd hp hmem)
      · exact le_of_lt (hmax p hp hpa)
    exact le_antisymm h2 h1
  have hfilter : freqs.filter (fun p => p.2 == maxFreqOf freqs) = [(a, m)] := by
    apply filter_eq_singleton hnd hmem
    intro p hp
    constructor
    · intro hpred
      have hval : p.2 = m := by
        have := of_decide_eq_true hpred
        simpa [hmaxeq] using this
      rcases p with ⟨p1, p2⟩
      by_cases hpa : p1 = a
      · rcases hpa with rfl
        simp only at hval
        rw [hval]
      · exact absurd hval (Nat.ne_of_lt (hmax _ hp hpa))
    · rintro rfl
      simp [hmaxeq]
  have hmodes : modesOf freqs = [a] := by
    rw [modesOf, hfilter]
    rfl
  obtain ⟨f, fs, rfl⟩ : ∃ f fs, freqs = f :: fs := by
    cases freqs with
    | nil => exact absurd rfl hne
    | cons f fs => exact ⟨f, fs, rfl⟩
  simp only [select_mode_or_sample, hmodes]

/-- Witness for claim C2 at the frequency table of the spec. -/
theorem claim_C2_witness :
    select_mode_or_sample 0 [("10.00", 3), ("12.00", 1)] = some ("10.00", "mode") :=
  claim_C2 [("10.00", 3), ("12.00", 1)] 0 "10.00" 3 (by decide) (by decide) (by decide)

/-- Membership in a foldr of replicate blocks implies membership in the
underlying list. -/
theorem mem_foldr_replicate {freqs : List (String × ℕ)} {b : String} :
    ∀ ms : List String,
      b ∈ ms.foldr (fun m acc => List.replicate (dictGet freqs m) m ++ acc) [] →
        b ∈ ms
  | [], hb => by cases hb
  | m :: ms, hb => by
    simp only [List.foldr_cons, List.mem_append] at hb
    rcases hb with h | h
    · have hbm : b = m := List.eq_of_mem_replicate h
      simp [hbm]
    · exact List.mem_cons_of_mem m (mem_foldr_replicate ms h)

/-- Membership in the weighted pool implies membership in the mode list. -/
theorem mem_weightedModes {freqs : List (String × ℕ)} {b : String}
    (hb : b ∈ weightedModesOf freqs) : b ∈ modesOf freqs :=
  mem_foldr_replicate (modesOf freqs) hb

/-- Element count of a foldr of replicate blocks: the count in the
underlying list times the replication width of that element. -/
theorem count_foldr_replicate (freqs : List (String × ℕ)) (b : String) :
    ∀ ms : List String,
      (ms.foldr (fun m acc => List.replicate (dictGet freqs m) m ++ acc) []).count b =
        ms.count b * dictGet freqs b
  | [] => by simp
  | m :: ms => by
    rw [List.foldr_cons, List.count_append, count_foldr_replicate freqs b ms,
      List.count_cons]
    by_cases hmb : m = b
    · subst hmb
      rw [List.count_replicate_self]
      have hif : (if (m == m) = true then 1 else 0) = 1 := by simp
      rw [hif, Nat.add_mul, Nat.one_mul, Nat.add_comm]
    · have h1 : (List.replicate (dictGet freqs m) m).count b = 0 := by
        have hbm : (m == b) = false := beq_eq_false_iff_ne.mpr hmb
        rw [List.count_replicate, hbm]
        rfl
      have h2 : (if (m == b) = true then 1 else 0) = 0 := by
        simp [hmb]
      rw [h1, h2, Nat.add_zero, Nat.zero_add]

/-- The count of an answer in the weighted pool: its own frequency repeated
once per occurrence in the mode list. -/
theorem count_weightedModes (freqs : List (String × ℕ)) (b : String) :
    (weightedModesOf freqs).count b =
      (modesOf freqs).count b * dictGet freqs b :=
  count_foldr_replicate freqs b (modesOf freqs)

/-- Membership in the mode list is attaining the maximum frequency. -/
theorem mem_modesOf_iff {freqs : List (String × ℕ)} {b : String} :
    b ∈ modesOf freqs ↔ (b, maxFreqOf freqs) ∈ freqs := by
  constructor
  · intro hb
    rcases List.mem_map.mp hb with ⟨p, hpf, hp1⟩
    have hp := List.mem_of_mem_filter hpf
    have hval : p.2 = maxFreqOf freqs := by
      have := List.of_mem_filter hpf
      simpa using this
    rcases p with ⟨p1, p2⟩
    cases hp1
    cases hval
    exact hp
  · intro hb
    apply List.mem_map.mpr
    refine ⟨(b, maxFreqOf freqs), List.mem_filter.mpr ⟨hb, by simp⟩, rfl⟩

/-- The mode list has no duplicates when the keys are distinct. -/
theorem modesOf_nodup {freqs : List (String × ℕ)}
    (hnd : (freqs.map Prod.fst).Nodup) : (modesOf freqs).Nodup := by
  rw [modesOf]
  have hsub : (freqs.filter (fun p => p.2 == maxFreqOf freqs)).map Prod.fst
      |>.Sublist (freqs.map Prod.fst) := (List.filter_sublist freqs).map Prod.fst
  exact hnd.sublist hsub

/-- Claim C10: for every non-empty frequency table with distinct keys and
positive frequencies, and every random draw, select_mode_or_sample returns
an answer attaining the maximum frequency, and the weighted pool used by
the tie branch holds each maximum-frequency answer exactly max-frequency
times and no other answer (so a uniform draw from the pool is uniform over
the tied candidates). -/
theorem claim_C10 (freqs : List (String × ℕ)) (draw : ℕ)
    (hnd : (freqs.map Prod.fst).Nodup) (hne : freqs ≠ [])
    (hpos : ∀ p ∈ freqs, 0 < p.2) :
    ∃ a tag, select_mode_or_sample draw freqs = some (a, tag) ∧
      (a, maxFreqOf freqs) ∈ freqs ∧
      ∀ b, (weightedModesOf freqs).count b =
        if (b, maxFreqOf freqs) ∈ freqs then maxFreqOf freqs else 0 := by
  obtain ⟨f, fs, rfl⟩ : ∃ f fs, freqs = f :: fs := by
    cases freqs with
    | nil => exact absurd rfl hne
    | cons f fs => exact ⟨f, fs, rfl⟩
  have hcount : ∀ b, (weightedModesOf (f :: fs)).count b =
      if (b, maxFreqOf (f :: fs)) ∈ f :: fs then maxFreqOf (f :: fs) else 0 := by
    intro b
    rw [count_weightedModes]
    by_cases hb : (b, maxFreqOf (f :: fs)) ∈ f :: fs
    · have hbm : b ∈ modesOf (f :: fs) := mem_modesOf_iff.mpr hb
      have h1 : (modesOf (f :: fs)).count b = 1 :=
        List.count_eq_one_of_mem (modesOf_nodup hnd) hbm
      rw [h1, dictGet_eq hnd hb, if_pos hb, Nat.one_mul]
    · have hbm : b ∉ modesOf (f :: fs) := fun h => hb (mem_modesOf_iff.mp h)
      rw [List.count_eq_zero_of_not_mem hbm, if_neg hb, Nat.zero_mul]
  rcases maxFreqOf_mem hne with ⟨p, hp, hval⟩
  have hpmem : (p.1, maxFreqOf (f :: fs)) ∈ f :: fs := by
    rcases p with ⟨p1, p2⟩
    cases hval
    exact hp
  have hmodes_ne : modesOf (f :: fs) ≠ [] := by
    intro h
    have := mem_modesOf_iff.mpr hpmem
    rw [h] at this
    cases this
  have hmaxpos : 0 < maxFreqOf (f :: fs) := hval ▸ hpos p hp
  rcases hm : modesOf (f :: fs) with _ | ⟨m, ms⟩
  · exact absurd hm hmodes_ne
  · rcases ms with _ | ⟨m2, ms'⟩
    · refine ⟨m, "mode", ?_, ?_, hcount⟩
      · simp only [select_mode_or_sample, hm]
      · exact mem_modesOf_iff.mp (by rw [hm]; simp)
    · have hpool_ne : weightedModesOf (f :: fs) ≠ [] := by
        intro hempty
        have hz : (weightedModesOf (f :: fs)).count m = 0 := by
          rw [hempty]
          rfl
        rw [hcount m] at hz
        have hmm : (m, maxFreqOf (f :: fs)) ∈ f :: fs :=
          mem_modesOf_iff.mp (by rw [hm]; simp)
        rw [if_pos hmm] at hz
        omega
      have hlen : 0 < (weightedModesOf (f :: fs)).length :=
        List.length_pos.mpr hpool_ne
      have hidx : draw % (weightedModesOf (f :: fs)).length <
          (weightedModesOf (f :: fs)).length := Nat.mod_lt _ hlen
      rcases hget : (weightedModesOf (f :: fs)).get?
          (draw % (weightedModesOf (f :: fs)).length) with _ | c
      · rw [List.get?_eq_none] at hget
        omega
      · have hcmem : c ∈ weightedModesOf (f :: fs) := List.get?_mem hget
        have hcmodes : c ∈ modesOf (f :: fs) := mem_weightedModes hcmem
        refine ⟨c, "sampling", ?_, mem_modesOf_iff.mp hcmodes, hcount⟩
        simp only [select_mode_or_sample, hm, hget]

/-- Witness for claim C10 at a two-way tie. -/
theorem claim_C10_witness :
    ∃ a tag, select_mode_or_sample 1 [("10.00", 2), ("12.00", 2)] = some (a, tag) ∧
      (a, maxFreqOf [("10.00", 2), ("12.00", 2)]) ∈ [("10.00", 2), ("12.00", 2)] ∧
      ∀ b, (weightedModesOf [("10.00", 2), ("12.00", 2)]).count b =
        if (b, maxFreqOf [("10.00", 2), ("12.00", 2)]) ∈ [("10.00", 2), ("12.00", 2)]
        then maxFreqOf [("10.00", 2), ("12.00", 2)] else 0 :=
  claim_C10 [("10.00", 2), ("12.00", 2)] 1 (by decide) (by decide) (by decide)

/-! ### Variable-mapping lemmas -/

/-- With enough letters, the letter assignment pairs the long names with an
initial segment of the unused-letter list. -/
theorem assignLetters_eq_zip : ∀ (vs : List String) (cs : List Char),
    vs.length ≤ cs.length → assignLetters vs cs = some (vs.zip cs)
  | [], _, _ => rfl
  | v :: vs, [], h => by cases h
  | v :: vs, c :: cs, h => by
    have hrec := assignLetters_eq_zip vs cs (Nat.le_of_succ_le_succ h)
    simp [assignLetters, hrec]

/-- Zipping with a duplicate-free second component is injective in the
second component. -/
theorem zip_snd_injective : ∀ (vs : List String) (cs : List Char), cs.Nodup →
    ∀ v₁ v₂ c, (v₁, c) ∈ vs.zip cs → (v₂, c) ∈ vs.zip cs → v₁ = v₂
  | [], _, _, v₁, v₂, c, h₁, _ => by cases h₁
  | _ :: _, [], _, v₁, v₂, c, h₁, _ => by cases h₁
  | v :: vs, c' :: cs, hnd, v₁, v₂, c, h₁, h₂ => by
    have hnd' : cs.Nodup := (List.nodup_cons.mp hnd).2
    have hhead : c' ∉ cs := (List.nodup_cons.mp hnd).1
    rw [List.zip_cons_cons, List.mem_cons] at h₁ h₂
    rcases h₁ with h₁ | h₁ <;> rcases h₂ with h₂ | h₂
    · rw [Prod.mk.injEq] at h₁ h₂
      rw [h₁.1, h₂.1]
    · exfalso
      have hc : c = c' := (Prod.mk.injEq .. ▸ h₁).2.symm ▸ rfl
      rw [Prod.mk.injEq] at h₁
      have hcs : c ∈ cs := (List.of_mem_zip h₂).2
      rw [← h₁.2] at hhead
      exact hhead hcs
    · exfalso
      rw [Prod.mk.injEq] at h₂
      have hcs : c ∈ cs := (List.of_mem_zip h₁).2
      rw [← h₂.2] at hhead
      exact hhead hcs
    · exact zip_snd_injective vs cs hnd' v₁ v₂ c h₁ h₂

/-- The unused-letter list never repeats a letter. -/
theorem unusedChars_nodup (s : String) : (unusedChars s).Nodup :=
  List.Nodup.filter _ (by decide)

/-- An unused letter is not a variable name already present. -/
theorem unusedChars_not_var {s : String} {c : Char} (hc : c ∈ unusedChars s) :
    ¬ String.mk [c] ∈ varNamesOf s := by
  have hfilter := (List.mem_filter.mp hc).2
  intro hmem
  have hcontains : (varNamesOf s).contains (String.mk [c]) = true :=
    List.elem_iff.mpr hmem
  rw [hcontains] at hfilter
  cases hfilter

/-- Claim C6: whenever at least one unused lowercase letter is available
per long variable name, simplify_variables builds an injective mapping: no
two distinct long names receive the same letter, and no assigned letter is
a single-letter variable already present in the input. -/
theorem claim_C6 (s : String)
    (h : (longVarNames s).length ≤ (unusedChars s).length) :
    ∃ m, assignLetters (longVarNames s) (unusedChars s) = some m ∧
      (∀ v₁ c₁ v₂ c₂, (v₁, c₁) ∈ m → (v₂, c₂) ∈ m → c₁ = c₂ → v₁ = v₂) ∧
      (∀ v c, (v, c) ∈ m → ¬ String.mk [c] ∈ varNamesOf s) := by
  refine ⟨(longVarNames s).zip (unusedChars s), assignLetters_eq_zip _ _ h, ?_, ?_⟩
  · intro v₁ c₁ v₂ c₂ h₁ h₂ hcc
    rw [hcc] at h₁
    exact zip_snd_injective _ _ (unusedChars_nodup s) v₁ v₂ c₂ h₁ h₂
  · intro v c hm
    exact unusedChars_not_var (List.of_mem_zip hm).2

/-- Witness for claim C6 on an input with two long variable names. -/
theorem claim_C6_witness :
    ∃ m, assignLetters (longVarNames "total_cost = 3 * unit_price")
        (unusedChars "total_cost = 3 * unit_price") = some m ∧
      (∀ v₁ c₁ v₂ c₂, (v₁, c₁) ∈ m → (v₂, c₂) ∈ m → c₁ = c₂ → v₁ = v₂) ∧
      (∀ v c, (v, c) ∈ m → ¬ String.mk [c] ∈ varNamesOf "total_cost = 3 * unit_price") :=
  claim_C6 "total_cost = 3 * unit_price" (by decide)

/-! ### Extractor lemmas -/

/-- A successful close search decomposes its input around the "]]". -/
theorem findClose_decomp : ∀ (l body rest : List Char),
    findClose l = some (body, rest) → l = body ++ ']' :: ']' :: rest
  | [], body, rest, h => by cases h
  | c :: l', body, rest, h => by
    rw [findClose] at h
    by_cases hcl : (c == ']' && (l'.head? == some ']')) = true
    · rw [if_pos hcl] at h
      simp only [Bool.and_eq_true, beq_iff_eq] at hcl
      obtain ⟨l'', rfl⟩ : ∃ l'', l' = ']' :: l'' := by
        cases l' with
        | nil => cases hcl.2
        | cons x xs =>
          refine ⟨xs, ?_⟩
          have hx : x = ']' := by
            have := hcl.2
            simp only [List.head?, Option.some.injEq] at this
            exact this
          rw [hx]
      simp only [List.tail_cons, Option.some.injEq, Prod.mk.injEq] at h
      rw [hcl.1, ← h.1, ← h.2]
      rfl
    · rw [if_neg hcl] at h
      by_cases hnl : (c == '\n') = true
      · rw [if_pos hnl] at h
        cases h
      · rw [if_neg hnl] at h
        rcases hfc : findClose l' with _ | ⟨body', rest'⟩
        · rw [hfc] at h
          cases h
        · rw [hfc] at h
          simp only [Option.map_some', Option.some.injEq, Prod.mk.injEq] at h
          have hrec := findClose_decomp l' body' rest' hfc
          rw [← h.1, ← h.2, hrec]
          rfl

/-- When the text admits no double-bracket decomposition, the fragment scan
finds nothing, for every fuel. -/
theorem findFragsAux_nil : ∀ (fuel : ℕ) (l : List Char),
    (¬ ∃ a b c : List Char, l = a ++ '[' :: '[' :: b ++ ']' :: ']' :: c) →
    findFragsAux fuel l = []
  | 0, [], _ => rfl
  | 0, _ :: _, _ => rfl
  | _ + 1, [], _ => rfl
  | fuel + 1, c :: rest, h => by
    rw [findFragsAux]
    by_cases hcl : (c == '[' && (rest.head? == some '[')) = true
    · rw [if_pos hcl]
      simp only [Bool.and_eq_true, beq_iff_eq] at hcl
      obtain ⟨rest2, rfl⟩ : ∃ r, rest = '[' :: r := by
        cases rest with
        | nil => cases hcl.2
        | cons x xs =>
          refine ⟨xs, ?_⟩
          have hx : x = '[' := by
            have := hcl.2
            simp only [List.head?, Option.some.injEq] at this
            exact this
          rw [hx]
      rcases hfc : findClose ('[' :: rest2).tail with _ | ⟨body, rest3⟩
      · refine findFragsAux_nil fuel ('[' :: rest2) ?_
        rintro ⟨a, b, d, hdec⟩
        exact h ⟨c :: a, b, d, by rw [hdec]; rfl⟩
      · exfalso
        have hdec := findClose_decomp rest2 body rest3 (by simpa using hfc)
        exact h ⟨[], body, rest3, by rw [hcl.1, hdec]; rfl⟩
    · rw [if_neg hcl]
      refine findFragsAux_nil fuel rest ?_
      rintro ⟨a, b, d, hdec⟩
      exact h ⟨c :: a, b, d, by rw [hdec]; rfl⟩

/-- Claim C7: a prediction text containing no substring delimited by double
square brackets is returned unchanged by get_declarative_equations. -/
theorem claim_C7 (prediction : String)
    (h : ¬ ∃ a b c : List Char,
      prediction.data = a ++ '[' :: '[' :: b ++ ']' :: ']' :: c) :
    get_declarative_equations prediction = prediction := by
  have hf : findFrags prediction.data = [] :=
    findFragsAux_nil prediction.data.length prediction.data h
  simp [get_declarative_equations, hf]

/-- Witness for claim C7 on a bracket-free prediction. -/
theorem claim_C7_witness :
    get_declarative_equations "The answer is 7" = "The answer is 7" :=
  claim_C7 "The answer is 7" (by
    rintro ⟨a, b, c, hdec⟩
    have hmem : '[' ∈ "The answer is 7".data := by
      rw [hdec]
      simp
    exact absurd hmem (by decide))

/-! ### External-collaborator failure mapping -/

/-- Claim C9 counterexample: an engine failure in run_llm yields the
sentinel "-1", which is not the "bug" sentinel the claim asserts. -/
theorem claim_C9_counterexample :
    runLlmIter true (fun _ => .ok "") (fun _ => .raisedC "engine failure") "m" 0 = "-1" ∧
      ("-1" : String) ≠ "bug" := by
  constructor
  · rfl
  · decide

/-- Claim C9 amended: the sandboxed code executor maps its failures to
"bug" as claimed — it returns the stripped captured standard output exactly
when the process completes with exit code 0, and "bug" on nonzero exit,
timeout, or any raised error — but the generation-engine invocation run_llm
maps engine errors and nonzero exits to the sentinel "-1", not "bug"; in
both functions failures are returned as values, never propagated. -/
theorem claim_C9_amended :
    (∀ run code p, run (code ++ solutionCallSuffix) = ProcOutcome.completed p →
      p.returncode = 0 →
      run_code_with_subprocess_timeout run code = String.mk (pyStrip p.stdout.data)) ∧
    (∀ run code p, run (code ++ solutionCallSuffix) = ProcOutcome.completed p →
      ¬ p.returncode = 0 → run_code_with_subprocess_timeout run code = "bug") ∧
    (∀ run code, run (code ++ solutionCallSuffix) = ProcOutcome.timeoutExpired →
      run_code_with_subprocess_timeout run code = "bug") ∧
    (∀ run code e, run (code ++ solutionCallSuffix) = ProcOutcome.raised e →
      run_code_with_subprocess_timeout run code = "bug") ∧
    (∀ pyCall cppCall message i e, cppCall i = CppOutcome.raisedC e →
      runLlmIter true pyCall cppCall message i = "-1") ∧
    (∀ pyCall cppCall message i p, cppCall i = CppOutcome.completedC p →
      ¬ p.returncode = 0 → runLlmIter true pyCall cppCall message i = "-1") ∧
    (∀ pyCall cppCall message i e, pyCall i = LlmOutcome.raisedE e →
      runLlmIter false pyCall cppCall message i = "-1") ∧
    (∀ cpp pyCall cppCall message n, run_llm cpp pyCall cppCall message n =
      (List.range n).map (runLlmIter cpp pyCall cppCall message)) := by
  refine ⟨?_, ?_, ?_, ?_, ?_, ?_, ?_, ?_⟩
  · intro run code p hrun hrc
    simp [run_code_with_subprocess_timeout, hrun, hrc]
  · intro run code p hrun hrc
    simp [run_code_with_subprocess_timeout, hrun, hrc]
  · intro run code hrun
    simp [run_code_with_subprocess_timeout, hrun]
  · intro run code e hrun
    simp [run_code_with_subprocess_timeout, hrun]
  · intro pyCall cppCall message i e hcall
    simp [runLlmIter, hcall]
  · intro pyCall cppCall message i p hcall hrc
    simp [runLlmIter, hcall, hrc]
  · intro pyCall cppCall message i e hcall
    simp [runLlmIter, hcall]
  · intro cpp pyCall cppCall message n
    rfl

/-- Witness for claim C9 amended: a successful execution returns the
stripped output, and an engine failure returns "-1". -/
theorem claim_C9_amended_witness :
    run_code_with_subprocess_timeout
        (fun _ => ProcOutcome.completed ⟨0, " 42 \n", ""⟩)
        "def solution(): return 42" = "42" ∧
      runLlmIter true (fun _ => LlmOutcome.ok "") (fun _ => CppOutcome.raisedC "boom")
        "m" 0 = "-1" :=
  ⟨(claim_C9_amended.1 (fun _ => ProcOutcome.completed ⟨0, " 42 \n", ""⟩)
      "def solution(): return 42" ⟨0, " 42 \n", ""⟩ rfl rfl).trans (by decide),
    claim_C9_amended.2.2.2.2.1 (fun _ => LlmOutcome.ok "")
      (fun _ => CppOutcome.raisedC "boom") "m" 0 "boom" rfl⟩

/-! ### Solver error-handling -/

/-- The incremental loop never lets an exception escape, and only produces
allowed values. -/
theorem solverLoop_allowed {E : Type} (O : SymOracle E) (g : String) :
    ∀ (eqs : List String) (acc : List E),
      ∃ v, solverLoop O g eqs acc = .ok v ∧ AllowedVal v
  | [], _ => ⟨.str "no solution", rfl, by simp [AllowedVal]⟩
  | eqStr :: rest, acc => by
    rw [solverLoop]
    split
    · exact solverLoop_allowed O g rest acc
    · dsimp only
      split
      · exact ⟨_, rfl, by simp [AllowedVal]⟩
      · split
        · exact ⟨_, rfl, by simp [AllowedVal]⟩
        · split
          · exact ⟨_, rfl, by simp [AllowedVal]⟩
          · split
            · exact ⟨_, rfl, Or.inl ⟨_, rfl⟩⟩
            · split
              · exact ⟨_, rfl, Or.inl ⟨_, rfl⟩⟩
              · exact solverLoop_allowed O g rest _

/-- The fall-through stage never lets an exception escape, and only
produces allowed values. -/
theorem afterGoal_allowed {E : Type} (O : SymOracle E) (equationList : List String)
    (goalVar : Option String) (acc : List E) :
    ∃ v, afterGoal O equationList goalVar acc = .ok v ∧ AllowedVal v := by
  unfold afterGoal
  dsimp only
  split
  · split
    · exact ⟨_, rfl, by simp [AllowedVal]⟩
    · split
      · exact ⟨_, rfl, by simp [AllowedVal]⟩
      · split
        · exact ⟨_, rfl, Or.inl ⟨_, rfl⟩⟩
        · exact ⟨_, rfl, by simp [AllowedVal]⟩
  · split
    · exact ⟨_, rfl, by simp [AllowedVal]⟩
    · exact solverLoop_allowed O _ _ _

/-- The solver body either raises (to be caught at the top) or returns an
allowed value. -/
theorem getFinalBody_allowed {E : Type} (O : SymOracle E) (s : String) :
    (∃ e, getFinalBody O s = .error e) ∨
      ∃ v, getFinalBody O s = .ok v ∧ AllowedVal v := by
  rw [getFinalBody]
  split
  · exact Or.inl ⟨_, rfl⟩
  · dsimp only
    split
    · exact Or.inr ⟨_, rfl, by simp [AllowedVal]⟩
    · split
      · exact Or.inr ⟨_, rfl, by simp [AllowedVal]⟩
      · split
        · exact Or.inr (afterGoal_allowed O _ _ _)
        · split
          · split
            · split
              · exact Or.inl ⟨_, rfl⟩
              · split
                · exact Or.inl ⟨_, rfl⟩
                · split
                  · exact Or.inr ⟨_, rfl, Or.inl ⟨_, rfl⟩⟩
                  · exact Or.inr (afterGoal_allowed O _ _ _)
            · exact Or.inr ⟨_, rfl, by simp [AllowedVal]⟩
          · exact Or.inr (afterGoal_allowed O _ _ _)

/-- Claim C8: for every oracle behavior and every input string,
get_final_using_sympy propagates no exception — the top-level catch turns
any escaped error into "bug" — and its value is a float (including nan) or
exactly one of the four failure tags invalid equations, no goal found,
no solution, bug. -/
theorem claim_C8 (E : Type) (O : SymOracle E) (s : String) :
    AllowedVal (get_final_using_sympy O s) := by
  rw [get_final_using_sympy]
  rcases getFinalBody_allowed O s with ⟨e, he⟩ | ⟨v, hv, hall⟩
  · rw [he]
    simp [AllowedVal]
  · rw [hv]
    exact hall

/-! ### Canonicalizer idempotence lemmas -/

/-- A digit character is not a comma. -/
theorem digit_ne_comma {c : Char} (h : c.isDigit = true) : ¬ c = ',' := by
  rintro rfl
  exact absurd h (by decide)

/-- Removing commas from a comma-free list changes nothing. -/
theorem stripCommas_eq_self {l : List Char} (h : ∀ c ∈ l, ¬ c = ',') :
    stripCommas l = l := by
  rw [stripCommas]
  apply List.filter_eq_self.mpr
  intro a ha
  simpa using h a ha

/-- Comma removal distributes over append. -/
theorem stripCommas_append (a b : List Char) :
    stripCommas (a ++ b) = stripCommas a ++ stripCommas b := by
  rw [stripCommas, stripCommas, stripCommas, List.filter_append]

/-- Comma removal commutes with reversal. -/
theorem stripCommas_reverse (l : List Char) :
    stripCommas l.reverse = (stripCommas l).reverse := by
  rw [stripCommas, stripCommas, List.filter_reverse]

/-- Comma removal is idempotent. -/
theorem stripCommas_idem (l : List Char) :
    stripCommas (stripCommas l) = stripCommas l := by
  apply stripCommas_eq_self
  intro c hc
  have := (List.mem_filter.mp hc).2
  simpa using this

/-- Removing commas from an all-digit list changes nothing. -/
theorem stripCommas_digits {l : List Char} (h : ∀ c ∈ l, c.isDigit = true) :
    stripCommas l = l :=
  stripCommas_eq_self (fun c hc => digit_ne_comma (h c hc))

/-- One scan step on a digit: accumulate and set the flag. -/
theorem scan_digit {c : Char} (h : c.isDigit = true) (tail acc : List Char) (b : Bool) :
    scanLoop (c :: tail) acc b = scanLoop tail (acc ++ [c]) true := by
  simp [scanLoop, h]

/-- One scan step on a decimal point after a digit: accumulate. -/
theorem scan_dot (tail acc : List Char) :
    scanLoop ('.' :: tail) acc true = scanLoop tail (acc ++ ['.']) true := by
  simp [scanLoop]

/-- One scan step on a minus after a digit: accumulate it and stop. -/
theorem scan_minus (tail acc : List Char) :
    scanLoop ('-' :: tail) acc true = acc ++ ['-'] := by
  simp [scanLoop]

/-- Scanning a run of digits and commas after a digit accumulates exactly
the digits, skipping the commas. -/
theorem scan_digits_commas : ∀ (l tail acc : List Char),
    (∀ c ∈ l, c.isDigit = true ∨ c = ',') →
    scanLoop (l ++ tail) acc true = scanLoop tail (acc ++ stripCommas l) true
  | [], tail, acc, _ => by simp [stripCommas]
  | c :: l', tail, acc, h => by
    rcases h c (by simp) with hd | hc
    · rw [List.cons_append, scan_digit hd,
        scan_digits_commas l' tail (acc ++ [c]) (fun d hd' => h d (by simp [hd']))]
      have hcons : stripCommas (c :: l') = c :: stripCommas l' := by
        simp [stripCommas, digit_ne_comma hd]
      rw [hcons, List.append_assoc]
      rfl
    · subst hc
      have hstep : scanLoop (',' :: (l' ++ tail)) acc true =
          scanLoop (l' ++ tail) acc true := by
        simp [scanLoop]
      rw [List.cons_append, hstep,
        scan_digits_commas l' tail acc (fun d hd' => h d (by simp [hd']))]
      have hcons : stripCommas (',' :: l') = stripCommas l' := by
        simp [stripCommas]
      rw [hcons]

/-- Scanning the optional sign after a digit: keep it and finish. -/
theorem scan_sign (neg : Bool) (acc : List Char) :
    scanLoop (if neg then ['-'] else []) acc true =
      acc ++ (if neg then ['-'] else []) := by
  cases neg
  · simp [scanLoop]
  · simp [scan_minus]

/-- The reverse of the optional sign is itself. -/
theorem sign_reverse (neg : Bool) :
    (if neg then ['-'] else []).reverse = (if neg then ['-'] else []) := by
  cases neg <;> rfl

/-- The optional sign carries no comma. -/
theorem sign_strip (neg : Bool) :
    stripCommas (if neg then ['-'] else []) = (if neg then ['-'] else []) := by
  cases neg <;> rfl

/-- Backward scan of a well-formed integer shape (optional sign, digits and
commas ending with a digit): the accumulator is the comma-stripped input. -/
theorem scan_wf_none (neg : Bool) (ip : List Char)
    (hip : ∀ c ∈ ip, c.isDigit = true ∨ c = ',')
    (hlast : ∃ d, ip.getLast? = some d ∧ d.isDigit = true) :
    (scanLoop ((if neg then ['-'] else []) ++ ip).reverse [] false).reverse =
      stripCommas ((if neg then ['-'] else []) ++ ip) := by
  obtain ⟨d, hd, hddig⟩ := hlast
  obtain ⟨ir, hir⟩ : ∃ ir, ip.reverse = d :: ir := by
    have hh : ip.reverse.head? = some d := by
      rw [List.head?_reverse]
      exact hd
    cases hrev : ip.reverse with
    | nil =>
      rw [hrev] at hh
      cases hh
    | cons x xs =>
      rw [hrev] at hh
      simp only [List.head?, Option.some.injEq] at hh
      exact ⟨xs, by rw [hh]⟩
  have hir_mem : ∀ c ∈ ir, c.isDigit = true ∨ c = ',' := by
    intro c hc
    apply hip
    have hcrev : c ∈ ip.reverse := by
      rw [hir]
      simp [hc]
    exact List.mem_reverse.mp hcrev
  have hip_eq : ip = ir.reverse ++ [d] := by
    have hcong := congrArg List.reverse hir
    simpa using hcong
  rw [List.reverse_append, sign_reverse, hir, List.cons_append,
    scan_digit hddig, scan_digits_commas ir _ _ hir_mem, scan_sign]
  rw [hip_eq, stripCommas_append, stripCommas_append, sign_strip,
    stripCommas_reverse]
  have hd_strip : stripCommas [d] = [d] :=
    stripCommas_digits (by simpa using hddig)
  rw [hd_strip]
  simp [List.reverse_append, sign_reverse]

/-- Backward scan of a well-formed fractional shape (optional sign, digits
and commas, a decimal point, one or more fraction digits): the accumulator
is the comma-stripped input. -/
theorem scan_wf_some (neg : Bool) (ip f : List Char)
    (hip : ∀ c ∈ ip, c.isDigit = true ∨ c = ',')
    (hf_ne : f ≠ []) (hf : ∀ c ∈ f, c.isDigit = true) :
    (scanLoop ((if neg then ['-'] else []) ++ ip ++ '.' :: f).reverse [] false).reverse =
      stripCommas ((if neg then ['-'] else []) ++ ip ++ '.' :: f) := by
  obtain ⟨e, fr, hfr⟩ : ∃ e fr, f.reverse = e :: fr := by
    cases hrev : f.reverse with
    | nil => exact absurd (by simpa using congrArg List.reverse hrev) hf_ne
    | cons x xs => exact ⟨x, xs, rfl⟩
  have hf_eq : f = fr.reverse ++ [e] := by
    have hcong := congrArg List.reverse hfr
    simpa using hcong
  have hedig : e.isDigit = true := by
    apply hf
    have : e ∈ f.reverse := by
      rw [hfr]
      simp
    exact List.mem_reverse.mp this
  have hfr_mem : ∀ c ∈ fr, c.isDigit = true ∨ c = ',' := by
    intro c hc
    left
    apply hf
    have : c ∈ f.reverse := by
      rw [hfr]
      simp [hc]
    exact List.mem_reverse.mp this
  have hiprev_mem : ∀ c ∈ ip.reverse, c.isDigit = true ∨ c = ',' := by
    intro c hc
    exact hip c (List.mem_reverse.mp hc)
  rw [List.reverse_append, List.reverse_append, sign_reverse, List.reverse_cons,
    hfr, List.append_assoc, List.append_assoc, List.cons_append,
    scan_digit hedig, scan_digits_commas fr _ _ hfr_mem]
  rw [show ([] ++ [e]) ++ stripCommas fr = [e] ++ stripCommas fr by rfl]
  rw [show ['.'] ++ (ip.reverse ++ (if neg then ['-'] else [])) =
    '.' :: (ip.reverse ++ (if neg then ['-'] else [])) by rfl]
  rw [scan_dot, scan_digits_commas ip.reverse _ _ hiprev_mem, scan_sign]
  rw [stripCommas_append, stripCommas_append, sign_strip, stripCommas_reverse]
  have hfstrip : stripCommas ('.' :: f) = '.' :: f := by
    apply stripCommas_eq_self
    intro c hc
    rcases List.mem_cons.mp hc with rfl | hcf
    · decide
    · exact digit_ne_comma (hf c hcf)
  rw [hfstrip]
  have hfr_strip : stripCommas fr = fr :=
    stripCommas_digits (fun c hc => by
      apply hf
      have : c ∈ f.reverse := by
        rw [hfr]
        simp [hc]
      exact List.mem_reverse.mp this)
  rw [hfr_strip]
  simp [List.reverse_append, hf_eq, sign_reverse]

/-- Splitting a separator-free list yields the singleton piece. -/
theorem pySplit_no_sep {sep : Char} : ∀ {l : List Char}, (∀ c ∈ l, ¬ c = sep) →
    pySplit sep l = [l]
  | [], _ => rfl
  | c :: l', h => by
    have hc : (c == sep) = false := by
      simpa using h c (by simp)
    have hrec := pySplit_no_sep (fun d hd => h d (List.mem_cons_of_mem c hd))
    simp [pySplit, hc, hrec]

/-- Splitting around the first separator occurrence. -/
theorem pySplit_append_sep {sep : Char} : ∀ (a b : List Char), (∀ c ∈ a, ¬ c = sep) →
    pySplit sep (a ++ sep :: b) = a :: pySplit sep b
  | [], b, _ => by simp [pySplit]
  | c :: a', b, h => by
    have hc : (c == sep) = false := by
      simpa using h c (by simp)
    have hrec := pySplit_append_sep a' b (fun d hd => h d (List.mem_cons_of_mem c hd))
    simp [pySplit, hc, hrec]

/-- A digit character is not a decimal point. -/
theorem digit_ne_dot {c : Char} (h : c.isDigit = true) : ¬ c = '.' := by
  rintro rfl
  exact absurd h (by decide)

/-- float() on a pure digit numeral returns its value. -/
theorem parseMag_digits {ds : List Char} (hne : ds ≠ [])
    (h : ∀ c ∈ ds, c.isDigit = true) : parseMag ds = some ((digitsVal ds : ℚ)) := by
  have hsplit : pySplit '.' ds = [ds] :=
    pySplit_no_sep (fun c hc => digit_ne_dot (h c hc))
  have hempty : ds.isEmpty = false := by
    cases ds with
    | nil => exact absurd rfl hne
    | cons x xs => rfl
  have hall : ds.all Char.isDigit = true := List.all_eq_true.mpr h
  simp [parseMag, hsplit, hempty, hall]

/-- float() on a digit numeral with a fraction part returns its value. -/
theorem parseMag_frac {a f : List Char} (ha_ne : a ≠ [])
    (ha : ∀ c ∈ a, c.isDigit = true) (hf : ∀ c ∈ f, c.isDigit = true) :
    parseMag (a ++ '.' :: f) =
      some ((digitsVal a : ℚ) + (digitsVal f : ℚ) / (10 : ℚ) ^ f.length) := by
  have hsplit : pySplit '.' (a ++ '.' :: f) = [a, f] := by
    rw [pySplit_append_sep a f (fun c hc => digit_ne_dot (ha c hc)),
      pySplit_no_sep (fun c hc => digit_ne_dot (hf c hc))]
  have hempty : a.isEmpty = false := by
    cases a with
    | nil => exact absurd rfl ha_ne
    | cons x xs => rfl
  have hall_a : a.all Char.isDigit = true := List.all_eq_true.mpr ha
  have hall_f : f.all Char.isDigit = true := List.all_eq_true.mpr hf
  simp [parseMag, hsplit, hempty, hall_a, hall_f]

/-- float() keeps the explicit minus as the sign. -/
theorem pyFloat_neg (l : List Char) :
    pyFloat ('-' :: l) = (parseMag l).map (fun q => (true, q)) := by
  simp [pyFloat]

/-- float() of an unsigned numeral has a positive sign. -/
theorem pyFloat_pos {l : List Char} (h : ¬ l.head? = some '-') :
    pyFloat l = (parseMag l).map (fun q => (false, q)) := by
  rw [pyFloat, if_neg h]

/-- Appending a digit multiplies the value by ten and adds the digit. -/
theorem digitsVal_append_singleton (l : List Char) (c : Char) :
    digitsVal (l ++ [c]) = 10 * digitsVal l + (c.toNat - 48) := by
  rw [digitsVal, digitsVal, List.foldl_append]
  rfl

/-- The character of a digit below ten is a digit character. -/
theorem digitChar_isDigit {k : ℕ} (h : k < 10) : (Nat.digitChar k).isDigit = true := by
  interval_cases k <;> decide

/-- The character of a digit below ten carries that digit's value. -/
theorem digitChar_val {k : ℕ} (h : k < 10) : (Nat.digitChar k).toNat - 48 = k := by
  interval_cases k <;> decide

/-- The fuel-bounded digit rendering is non-empty, all digits, and correct. -/
theorem natDigitsAux_spec : ∀ (fuel n : ℕ), n < fuel →
    natDigitsAux fuel n ≠ [] ∧ (∀ c ∈ natDigitsAux fuel n, c.isDigit = true) ∧
      digitsVal (natDigitsAux fuel n) = n
  | 0, n, h => absurd h (Nat.not_lt_zero n)
  | fuel + 1, n, h => by
    rw [natDigitsAux]
    by_cases h10 : n < 10
    · rw [if_pos h10]
      refine ⟨by simp, ?_, ?_⟩
      · intro c hc
        rw [List.mem_singleton] at hc
        subst hc
        exact digitChar_isDigit h10
      · show 10 * 0 + ((Nat.digitChar n).toNat - 48) = n
        rw [digitChar_val h10]
        omega
    · rw [if_neg h10]
      have hn10 : n / 10 < fuel := by
        have h1 : n / 10 < n := Nat.div_lt_self (by omega) (by omega)
        omega
      obtain ⟨hne, hdig, hval⟩ := natDigitsAux_spec fuel (n / 10) hn10
      refine ⟨by simp, ?_, ?_⟩
      · intro c hc
        rcases List.mem_append.mp hc with hcl | hcr
        · exact hdig c hcl
        · rw [List.mem_singleton] at hcr
          subst hcr
          exact digitChar_isDigit (Nat.mod_lt n (by omega))
      · rw [digitsVal_append_singleton, hval,
          digitChar_val (Nat.mod_lt n (by omega))]
        omega

/-- Digit rendering of a natural number: non-empty, all digits, correct. -/
theorem natToDigits_spec (n : ℕ) :
    natToDigits n ≠ [] ∧ (∀ c ∈ natToDigits n, c.isDigit = true) ∧
      digitsVal (natToDigits n) = n :=
  natDigitsAux_spec (n + 1) n (Nat.lt_succ_self n)

/-- A two-digit render carries its value. -/
theorem digitsVal_two {a b : ℕ} (ha : a < 10) (hb : b < 10) :
    digitsVal [Nat.digitChar a, Nat.digitChar b] = 10 * a + b := by
  show 10 * (10 * 0 + ((Nat.digitChar a).toNat - 48)) + ((Nat.digitChar b).toNat - 48) =
    10 * a + b
  rw [digitChar_val ha, digitChar_val hb]
  omega

/-- Removing commas walks over a non-comma head. -/
theorem stripCommas_cons_of_ne {c : Char} (h : ¬ c = ',') (l : List Char) :
    stripCommas (c :: l) = c :: stripCommas l := by
  simp [stripCommas, h]

/-- Removing commas drops a comma head. -/
theorem stripCommas_cons_comma (l : List Char) :
    stripCommas (',' :: l) = stripCommas l := by
  simp [stripCommas]

/-- Characters of the grouped form come from the input or are commas. -/
theorem mem_commaGroupRev : ∀ (l : List Char) (c : Char),
    c ∈ commaGroupRev l → c ∈ l ∨ c = ','
  | [], c, h => Or.inl h
  | [d1], c, h => Or.inl h
  | [d1, d2], c, h => Or.inl h
  | [d1, d2, d3], c, h => Or.inl h
  | d1 :: d2 :: d3 :: d4 :: rest, c, h => by
    rw [commaGroupRev] at h
    simp only [List.mem_cons] at h
    rcases h with rfl | rfl | rfl | rfl | h
    · exact Or.inl (by simp)
    · exact Or.inl (by simp)
    · exact Or.inl (by simp)
    · exact Or.inr rfl
    · rcases mem_commaGroupRev (d4 :: rest) c h with hmem | hcm
      · exact Or.inl (by simp [List.mem_cons.mp hmem])
      · exact Or.inr hcm

/-- Removing the inserted commas recovers the digits. -/
theorem stripCommas_commaGroupRev : ∀ (l : List Char),
    (∀ c ∈ l, c.isDigit = true) → stripCommas (commaGroupRev l) = l
  | [], _ => rfl
  | [d1], h => stripCommas_digits h
  | [d1, d2], h => stripCommas_digits h
  | [d1, d2, d3], h => stripCommas_digits h
  | d1 :: d2 :: d3 :: d4 :: rest, h => by
    have hd1 := digit_ne_comma (h d1 (by simp))
    have hd2 := digit_ne_comma (h d2 (by simp))
    have hd3 := digit_ne_comma (h d3 (by simp))
    have hrec := stripCommas_commaGroupRev (d4 :: rest)
      (fun c hc => h c (by simp [List.mem_cons.mp hc]))
    rw [commaGroupRev, stripCommas_cons_of_ne hd1, stripCommas_cons_of_ne hd2,
      stripCommas_cons_of_ne hd3, stripCommas_cons_comma, hrec]

/-- The grouped form of a non-empty list is non-empty. -/
theorem commaGroupRev_ne_nil : ∀ {l : List Char}, l ≠ [] → commaGroupRev l ≠ []
  | [], h => absurd rfl h
  | [d1], _ => fun h => List.noConfusion h
  | [d1, d2], _ => fun h => List.noConfusion h
  | [d1, d2, d3], _ => fun h => List.noConfusion h
  | d1 :: d2 :: d3 :: d4 :: rest, _ => fun h => by
    rw [commaGroupRev] at h
    exact List.noConfusion h

/-- Removing commas from the thousands-grouped render recovers the digits. -/
theorem stripCommas_groupCommas {ds : List Char} (h : ∀ c ∈ ds, c.isDigit = true) :
    stripCommas (groupCommas ds) = ds := by
  rw [groupCommas, stripCommas_reverse,
    stripCommas_commaGroupRev ds.reverse (fun c hc => h c (List.mem_reverse.mp hc))]
  simp

/-- Characters of the thousands-grouped render are digits or commas. -/
theorem mem_groupCommas {ds : List Char} {c : Char} (hc : c ∈ groupCommas ds) :
    c ∈ ds ∨ c = ',' := by
  rw [groupCommas] at hc
  rcases mem_commaGroupRev ds.reverse c (List.mem_reverse.mp hc) with h | h
  · exact Or.inl (List.mem_reverse.mp h)
  · exact Or.inr h

/-- The thousands-grouped render of a non-empty digit list is non-empty. -/
theorem groupCommas_ne_nil {ds : List Char} (h : ds ≠ []) : groupCommas ds ≠ [] := by
  rw [groupCommas]
  intro hnil
  have hrev : ds.reverse ≠ [] := by
    intro hr
    exact h (by simpa using congrArg List.reverse hr)
  have := commaGroupRev_ne_nil hrev
  exact this (by simpa using congrArg List.reverse hnil)

/-- Half-even rounding of a natural number is that number. -/
theorem roundHalfEven_natCast (n : ℕ) : roundHalfEven (n : ℚ) = n := by
  simp only [roundHalfEven, Int.floor_natCast]
  norm_num

/-- Canonical outputs are fixed points of the canonicalizer. -/
theorem extract_format_fixpoint (neg : Bool) (cents : ℕ) :
    extract_and_format_value (formatTwo neg cents) = formatTwo neg cents := by
  obtain ⟨hI_ne, hI_dig, hI_val⟩ := natToDigits_spec (cents / 100)
  have hc1 : cents % 100 / 10 < 10 := by omega
  have hc2 : cents % 100 % 10 < 10 := by omega
  have hf_dig : ∀ c ∈ [Nat.digitChar (cents % 100 / 10), Nat.digitChar (cents % 100 % 10)],
      c.isDigit = true := by
    intro c hc
    rcases List.mem_cons.mp hc with rfl | hc
    · exact digitChar_isDigit hc1
    · rcases List.mem_cons.mp hc with rfl | hc
      · exact digitChar_isDigit hc2
      · cases hc
  have hip : ∀ c ∈ groupCommas (natToDigits (cents / 100)),
      c.isDigit = true ∨ c = ',' := by
    intro c hc
    rcases mem_groupCommas hc with h | h
    · exact Or.inl (hI_dig c h)
    · exact Or.inr h
  have hdata : (formatTwo neg cents).data =
      (if neg then ['-'] else []) ++ groupCommas (natToDigits (cents / 100)) ++
        '.' :: [Nat.digitChar (cents % 100 / 10), Nat.digitChar (cents % 100 % 10)] := rfl
  have hscan : (scanLoop (formatTwo neg cents).data.reverse [] false).reverse =
      stripCommas ((if neg then ['-'] else []) ++ groupCommas (natToDigits (cents / 100)) ++
        '.' :: [Nat.digitChar (cents % 100 / 10), Nat.digitChar (cents % 100 % 10)]) := by
    rw [hdata]
    exact scan_wf_some neg _ _ hip (by simp) hf_dig
  have hdot_strip : stripCommas ('.' ::
      [Nat.digitChar (cents % 100 / 10), Nat.digitChar (cents % 100 % 10)]) =
      '.' :: [Nat.digitChar (cents % 100 / 10), Nat.digitChar (cents % 100 % 10)] := by
    apply stripCommas_eq_self
    intro c hc
    rcases List.mem_cons.mp hc with rfl | hc
    · decide
    · exact digit_ne_comma (hf_dig c hc)
  have hclean : stripCommas ((if neg then ['-'] else []) ++
      groupCommas (natToDigits (cents / 100)) ++
        '.' :: [Nat.digitChar (cents % 100 / 10), Nat.digitChar (cents % 100 % 10)]) =
      (if neg then ['-'] else []) ++ natToDigits (cents / 100) ++
        '.' :: [Nat.digitChar (cents % 100 / 10), Nat.digitChar (cents % 100 % 10)] := by
    rw [stripCommas_append, stripCommas_append, sign_strip,
      stripCommas_groupCommas hI_dig, hdot_strip]
  have hqval : (digitsVal (natToDigits (cents / 100)) : ℚ) +
      (digitsVal [Nat.digitChar (cents % 100 / 10), Nat.digitChar (cents % 100 % 10)] : ℚ) /
        (10 : ℚ) ^ ([Nat.digitChar (cents % 100 / 10),
          Nat.digitChar (cents % 100 % 10)].length) = (cents : ℚ) / 100 := by
    rw [hI_val, digitsVal_two hc1 hc2]
    have hval2 : 10 * (cents % 100 / 10) + cents % 100 % 10 = cents % 100 := by omega
    rw [hval2]
    rw [show ([Nat.digitChar (cents % 100 / 10),
      Nat.digitChar (cents % 100 % 10)].length) = 2 by rfl]
    have key : (cents : ℚ) = 100 * ((cents / 100 : ℕ) : ℚ) + ((cents % 100 : ℕ) : ℚ) := by
      exact_mod_cast congrArg (Nat.cast : ℕ → ℚ)
        (by omega : cents = 100 * (cents / 100) + cents % 100)
    rw [show ((10 : ℚ) ^ (2 : ℕ)) = 100 by norm_num, key]
    field_simp
    ring
  have hpy : pyFloat (stripCommas ((scanLoop (formatTwo neg cents).data.reverse [] false).reverse)) =
      some (neg, (cents : ℚ) / 100) := by
    rw [hscan, stripCommas_idem, hclean]
    cases neg with
    | true =>
      rw [show ((if true then ['-'] else []) ++ natToDigits (cents / 100) ++
        '.' :: [Nat.digitChar (cents % 100 / 10), Nat.digitChar (cents % 100 % 10)]) =
        '-' :: (natToDigits (cents / 100) ++
          '.' :: [Nat.digitChar (cents % 100 / 10), Nat.digitChar (cents % 100 % 10)]) by rfl]
      rw [pyFloat_neg, parseMag_frac hI_ne hI_dig hf_dig]
      rw [Option.map_some']
      rw [hqval]
    | false =>
      rw [show ((if false then ['-'] else []) ++ natToDigits (cents / 100) ++
        '.' :: [Nat.digitChar (cents % 100 / 10), Nat.digitChar (cents % 100 % 10)]) =
        (natToDigits (cents / 100) ++
          '.' :: [Nat.digitChar (cents % 100 / 10), Nat.digitChar (cents % 100 % 10)]) by rfl]
      obtain ⟨e, nd', hnd⟩ : ∃ e nd', natToDigits (cents / 100) = e :: nd' := by
        cases hn : natToDigits (cents / 100) with
        | nil => exact absurd hn hI_ne
        | cons x xs => exact ⟨x, xs, rfl⟩
      have hhead : ¬ (natToDigits (cents / 100) ++
          '.' :: [Nat.digitChar (cents % 100 / 10),
            Nat.digitChar (cents % 100 % 10)]).head? = some '-' := by
        rw [hnd]
        intro hcontra
        simp only [List.cons_append, List.head?, Option.some.injEq] at hcontra
        have : e.isDigit = true := hI_dig e (by rw [hnd]; simp)
        rw [hcontra] at this
        exact absurd this (by decide)
      rw [pyFloat_pos hhead, parseMag_frac hI_ne hI_dig hf_dig]
      rw [Option.map_some']
      rw [hqval]
  have hround : (roundHalfEven (100 * ((cents : ℚ) / 100))).toNat = cents := by
    rw [show (100 : ℚ) * ((cents : ℚ) / 100) = (cents : ℚ) by ring,
      roundHalfEven_natCast]
    exact Int.toNat_natCast cents
  rw [extract_and_format_value]
  simp only [hpy]
  rw [hround]

/-- The last element, when it exists, is a member. -/
theorem getLast?_mem_of_eq {l : List Char} {d : Char} (h : l.getLast? = some d) :
    d ∈ l := by
  have hh : l.reverse.head? = some d := by
    rw [List.head?_reverse]
    exact h
  cases hrev : l.reverse with
  | nil =>
    rw [hrev] at hh
    cases hh
  | cons x xs =>
    rw [hrev] at hh
    simp only [List.head?, Option.some.injEq] at hh
    have hd : d ∈ l.reverse := by
      rw [hrev, hh]
      simp
    exact List.mem_reverse.mp hd

/-- On a well-formed decimal string the canonicalizer succeeds and emits a
canonical output. -/
theorem extract_wf_canonical {s : String} (h : WFDecimal s) :
    ∃ neg cents, extract_and_format_value s = formatTwo neg cents := by
  obtain ⟨neg, ip, fp, hdata, hip_ne, hip, hlast, hfp⟩ := h
  have hstrip_dig : ∀ c ∈ stripCommas ip, c.isDigit = true := by
    intro c hc
    have hmem := (List.mem_filter.mp hc).1
    have hprop := (List.mem_filter.mp hc).2
    rcases hip c hmem with hd | hcm
    · exact hd
    · rw [hcm] at hprop
      simp at hprop
  have hstrip_ne : stripCommas ip ≠ [] := by
    obtain ⟨d, hd, hddig⟩ := hlast
    have hdmem : d ∈ ip := getLast?_mem_of_eq hd
    have hds : d ∈ stripCommas ip :=
      List.mem_filter.mpr ⟨hdmem, by simpa using digit_ne_comma hddig⟩
    intro hnil
    rw [hnil] at hds
    cases hds
  have hhead_pos : (stripCommas ip).head? ≠ some '-' → True := fun _ => trivial
  obtain ⟨e, it, hit⟩ : ∃ e it, stripCommas ip = e :: it := by
    cases hsc : stripCommas ip with
    | nil => exact absurd hsc hstrip_ne
    | cons x xs => exact ⟨x, xs, rfl⟩
  have hedig : e.isDigit = true := hstrip_dig e (by rw [hit]; simp)
  have hene : ¬ (e :: it).head? = some '-' := by
    intro hcontra
    simp only [List.head?, Option.some.injEq] at hcontra
    rw [hcontra] at hedig
    exact absurd hedig (by decide)
  cases fp with
  | none =>
    have hdata' : s.data = (if neg then ['-'] else []) ++ ip := by
      simpa using hdata
    have hscan : (scanLoop s.data.reverse [] false).reverse =
        stripCommas ((if neg then ['-'] else []) ++ ip) := by
      rw [hdata']
      exact scan_wf_none neg ip hip hlast
    have hparse : parseMag (stripCommas ip) = some ((digitsVal (stripCommas ip) : ℚ)) :=
      parseMag_digits hstrip_ne hstrip_dig
    have hpy : pyFloat (stripCommas ((scanLoop s.data.reverse [] false).reverse)) =
        some (neg, (digitsVal (stripCommas ip) : ℚ)) := by
      rw [hscan, stripCommas_idem, stripCommas_append, sign_strip]
      cases neg with
      | true =>
        rw [show ((if true then ['-'] else []) ++ stripCommas ip) =
          '-' :: stripCommas ip by rfl]
        rw [pyFloat_neg, hparse, Option.map_some']
      | false =>
        rw [show ((if false then ['-'] else []) ++ stripCommas ip) =
          stripCommas ip by rfl]
        rw [pyFloat_pos (by rw [hit]; exact hene), hparse, Option.map_some']
    refine ⟨neg, (roundHalfEven (100 * (digitsVal (stripCommas ip) : ℚ))).toNat, ?_⟩
    rw [extract_and_format_value]
    simp only [hpy]
  | some f =>
    obtain ⟨hf_ne, hf_dig⟩ := hfp f rfl
    have hdata' : s.data = (if neg then ['-'] else []) ++ ip ++ '.' :: f := by
      simpa using hdata
    have hscan : (scanLoop s.data.reverse [] false).reverse =
        stripCommas ((if neg then ['-'] else []) ++ ip ++ '.' :: f) := by
      rw [hdata']
      exact scan_wf_some neg ip f hip hf_ne hf_dig
    have hdot_strip : stripCommas ('.' :: f) = '.' :: f := by
      apply stripCommas_eq_self
      intro c hc
      rcases List.mem_cons.mp hc with rfl | hcf
      · decide
      · exact digit_ne_comma (hf_dig c hcf)
    have hparse : parseMag (stripCommas ip ++ '.' :: f) =
        some ((digitsVal (stripCommas ip) : ℚ) +
          (digitsVal f : ℚ) / (10 : ℚ) ^ f.length) :=
      parseMag_frac hstrip_ne hstrip_dig hf_dig
    have hpy : pyFloat (stripCommas ((scanLoop s.data.reverse [] false).reverse)) =
        some (neg, (digitsVal (stripCommas ip) : ℚ) +
          (digitsVal f : ℚ) / (10 : ℚ) ^ f.length) := by
      rw [hscan, stripCommas_idem, stripCommas_append, stripCommas_append,
        sign_strip, hdot_strip]
      cases neg with
      | true =>
        rw [show ((if true then ['-'] else []) ++ stripCommas ip ++ '.' :: f) =
          '-' :: (stripCommas ip ++ '.' :: f) by rfl]
        rw [pyFloat_neg, hparse, Option.map_some']
      | false =>
        rw [show ((if false then ['-'] else []) ++ stripCommas ip ++ '.' :: f) =
          stripCommas ip ++ '.' :: f by rfl]
        have hhead : ¬ (stripCommas ip ++ '.' :: f).head? = some '-' := by
          rw [hit]
          exact hene
        rw [pyFloat_pos hhead, hparse, Option.map_some']
    refine ⟨neg, (roundHalfEven (100 * ((digitsVal (stripCommas ip) : ℚ) +
      (digitsVal f : ℚ) / (10 : ℚ) ^ f.length))).toNat, ?_⟩
    rw [extract_and_format_value]
    simp only [hpy]

/-- Claim C5: the numeric canonicalizer is idempotent on every well-formed
decimal string (optionally comma-grouped, optionally negative): applying
extract_and_format_value twice gives the same result as applying it once. -/
theorem claim_C5 (x : String) (h : WFDecimal x) :
    extract_and_format_value (extract_and_format_value x) =
      extract_and_format_value x := by
  obtain ⟨neg, cents, hcanon⟩ := extract_wf_canonical h
  rw [hcanon, extract_format_fixpoint]

/-- Witness for claim C5 at the comma-grouped decimal of the spec. -/
theorem claim_C5_witness :
    extract_and_format_value (extract_and_format_value "1,234.5") =
      extract_and_format_value "1,234.5" :=
  claim_C5 "1,234.5" ⟨false, ['1', ',', '2', '3', '4'], some ['5'], rfl,
    by decide, by decide, ⟨'4', by decide, by decide⟩,
    fun f hf => by
      cases hf
      exact ⟨by decide, by decide⟩⟩



end LLMRobot
